import Mathlib

/-!
Verification of the NLP shopping-list pipeline in
`src/scraper/lib/nlp-parser.js` of LazyShopRiteAisleMapper.

The JavaScript source is shallowly embedded over `List Char` / `String`.
Each regular expression of the source is translated into an explicit
matcher with the same backtracking semantics (leftmost match, greedy or
lazy quantifiers as written).  JavaScript `\s`, `trim`, `toLowerCase`,
`toUpperCase` are modelled on the ASCII character range, which covers the
whole input domain the program is written for.
-/

namespace Nlp

/-- Character substitution by a finite table, identity off the table. -/
def applyTable (t : List (Char × Char)) (c : Char) : Char :=
  match t.find? (fun p => p.1 = c) with
  | some p => p.2
  | none => c

/-- ASCII uppercase letters paired with their lowercase forms. -/
def lowerPairs : List (Char × Char) :=
  [('A','a'),('B','b'),('C','c'),('D','d'),('E','e'),('F','f'),('G','g'),
   ('H','h'),('I','i'),('J','j'),('K','k'),('L','l'),('M','m'),('N','n'),
   ('O','o'),('P','p'),('Q','q'),('R','r'),('S','s'),('T','t'),('U','u'),
   ('V','v'),('W','w'),('X','x'),('Y','y'),('Z','z')]

/-- ASCII lowercase letters paired with their uppercase forms. -/
def upperPairs : List (Char × Char) :=
  [('a','A'),('b','B'),('c','C'),('d','D'),('e','E'),('f','F'),('g','G'),
   ('h','H'),('i','I'),('j','J'),('k','K'),('l','L'),('m','M'),('n','N'),
   ('o','O'),('p','P'),('q','Q'),('r','R'),('s','S'),('t','T'),('u','U'),
   ('v','V'),('w','W'),('x','X'),('y','Y'),('z','Z')]

/-- Lowercase an ASCII letter, as JavaScript `toLowerCase` acts on ASCII. -/
def jsToLower (c : Char) : Char := applyTable lowerPairs c

/-- Uppercase an ASCII letter, as JavaScript `toUpperCase` acts on ASCII. -/
def jsToUpper (c : Char) : Char := applyTable upperPairs c

/-- Whitespace class of the JavaScript regexes (`\s`), ASCII part. -/
def isWsC (c : Char) : Bool :=
  c = ' ' || c = '\t' || c = '\n' || c = '\r' || c = '\x0b' || c = '\x0c'

/-- Digit class of the JavaScript regexes (`\d`). -/
def isDigitC (c : Char) : Bool := '0' ≤ c && c ≤ '9'

/-- Lowercase ASCII letter, the `[a-z]` class of the source. -/
def isLowerC (c : Char) : Bool := 'a' ≤ c && c ≤ 'z'

/-- Word-character class of the JavaScript regexes (`\w`), used by `\b`. -/
def isWordC (c : Char) : Bool :=
  ('a' ≤ c && c ≤ 'z') || ('A' ≤ c && c ≤ 'Z') || ('0' ≤ c && c ≤ '9') || c = '_'

theorem applyTable_cases (t : List (Char × Char)) (c : Char) :
    applyTable t c = c ∨ ∃ p ∈ t, p.1 = c ∧ applyTable t c = p.2 := by
  unfold applyTable
  cases h : t.find? (fun p => p.1 = c) with
  | none => exact Or.inl rfl
  | some p =>
    refine Or.inr ⟨p, List.mem_of_find?_eq_some h, ?_, rfl⟩
    have := List.find?_some h
    exact of_decide_eq_true this

theorem applyTable_fix (t : List (Char × Char)) (c : Char)
    (h : ∀ p ∈ t, p.1 ≠ c) : applyTable t c = c := by
  unfold applyTable
  rw [List.find?_eq_none.mpr (by intro p hp; simpa using h p hp)]

theorem isWsC_jsToLower (c : Char) : isWsC (jsToLower c) = isWsC c := by
  rcases applyTable_cases lowerPairs c with h | ⟨p, hp, hk, hv⟩
  · rw [jsToLower, h]
  · have hws : ∀ p ∈ lowerPairs, isWsC p.1 = isWsC p.2 := by decide
    rw [jsToLower, hv, ← hk, (hws p hp)]

theorem isWsC_jsToUpper (c : Char) : isWsC (jsToUpper c) = isWsC c := by
  rcases applyTable_cases upperPairs c with h | ⟨p, hp, hk, hv⟩
  · rw [jsToUpper, h]
  · have hws : ∀ p ∈ upperPairs, isWsC p.1 = isWsC p.2 := by decide
    rw [jsToUpper, hv, ← hk, (hws p hp)]

theorem jsToLower_idem (c : Char) : jsToLower (jsToLower c) = jsToLower c := by
  rcases applyTable_cases lowerPairs c with h | ⟨p, hp, hk, hv⟩
  · unfold jsToLower; rw [h]; exact h
  · have hvals : ∀ p ∈ lowerPairs, ∀ q ∈ lowerPairs, q.1 ≠ p.2 := by decide
    unfold jsToLower
    rw [hv]
    exact applyTable_fix _ _ (hvals p hp)

theorem jsToUpper_cases (c : Char) :
    jsToUpper c = c ∨ (jsToLower (jsToUpper c) = c ∧ jsToUpper c ≠ c) := by
  rcases applyTable_cases upperPairs c with h | ⟨p, hp, hk, hv⟩
  · exact Or.inl h
  · refine Or.inr ⟨?_, ?_⟩
    · have hlow : ∀ p ∈ upperPairs, jsToLower p.2 = p.1 := by decide
      rw [jsToUpper, hv, hlow p hp, hk]
    · have hne : ∀ p ∈ upperPairs, p.2 ≠ p.1 := by decide
      rw [jsToUpper, hv, ← hk]
      exact hne p hp

theorem jsToLower_of_digit (c : Char) (h : isDigitC c = true) : jsToLower c = c := by
  have hd : ∀ p ∈ lowerPairs, isDigitC p.1 = false := by decide
  refine applyTable_fix _ _ ?_
  intro p hp he
  have hpd := hd p hp
  rw [he, h] at hpd
  exact absurd hpd (by simp)

/-! ### List-of-characters utilities shared by the stages -/

/-- Left trim, first half of JavaScript `String.trim`. -/
def trimL (l : List Char) : List Char := l.dropWhile isWsC

/-- Right trim, second half of JavaScript `String.trim`. -/
def trimR (l : List Char) : List Char := (l.reverse.dropWhile isWsC).reverse

/-- JavaScript `String.trim` on the modelled whitespace class. -/
def trimC (l : List Char) : List Char := trimR (trimL l)

/-- Substitution of every maximal whitespace run by a single space, the
global replace `replace(/\s+/g, ' ')` of the source. -/
def squeeze : List Char → List Char
  | [] => []
  | [c] => if isWsC c then [' '] else [c]
  | a :: b :: t =>
    if isWsC a && isWsC b then squeeze (b :: t)
    else (if isWsC a then ' ' else a) :: squeeze (b :: t)

/-- Whitespace collapse used on names and lookup terms:
`replace(/\s+/g, ' ').trim()` (nlp-parser.js lines 394 to 395). -/
def collapseC (l : List Char) : List Char := trimC (squeeze l)

/-- Adjacent characters are never both whitespace, and all whitespace is a
plain space.  This is the shape every `squeeze` output has. -/
def NormWs (l : List Char) : Prop :=
  l.Chain' (fun a b => ¬(isWsC a = true ∧ isWsC b = true)) ∧
    ∀ c ∈ l, isWsC c = true → c = ' '

/-- Ends carry no whitespace, the shape `trim` outputs have. -/
def TrimmedEnds (l : List Char) : Prop :=
  (∀ c, l.head? = some c → isWsC c = false) ∧
    (∀ c, l.getLast? = some c → isWsC c = false)

theorem squeeze_head_ws (t : List Char) : ∀ (b h : Char),
    (squeeze (b :: t)).head? = some h → isWsC h = isWsC b := by
  induction t with
  | nil =>
    intro b h hh
    simp only [squeeze] at hh
    split at hh
    next hw =>
      simp only [List.head?_cons, Option.some.injEq] at hh
      subst hh; rw [hw]; decide
    next hw =>
      simp only [List.head?_cons, Option.some.injEq] at hh
      subst hh; rfl
  | cons b' t ih =>
    intro b h hh
    simp only [squeeze] at hh
    split at hh
    · next hww =>
      have hb := ih b' h hh
      simp only [Bool.and_eq_true] at hww
      rw [hb, hww.1, hww.2]
    · simp only [List.head?_cons, Option.some.injEq] at hh
      subst hh
      split
      next hw => rw [hw]; decide
      next hw => rfl

theorem squeeze_chain (l : List Char) :
    (squeeze l).Chain' (fun a b => ¬(isWsC a = true ∧ isWsC b = true)) := by
  induction l with
  | nil => exact List.chain'_nil
  | cons a t ih =>
    cases t with
    | nil =>
      simp only [squeeze]
      split <;> simp
    | cons b t' =>
      simp only [squeeze]
      split
      · exact ih
      · next hww =>
        rw [List.chain'_cons']
        refine ⟨?_, ih⟩
        intro y hy
        have hws := squeeze_head_ws t' b y hy
        simp only [Bool.and_eq_true, not_and] at hww
        rintro ⟨ha, hb⟩
        rw [hws] at hb
        refine hww ?_ hb
        by_cases hw : isWsC a = true
        · exact hw
        · simp only [hw, if_neg] at ha
          simp at ha
          exact absurd ha hw

theorem squeeze_space (l : List Char) :
    ∀ c ∈ squeeze l, isWsC c = true → c = ' ' := by
  induction l with
  | nil => simp [squeeze]
  | cons a t ih =>
    cases t with
    | nil =>
      intro c hc hw
      simp only [squeeze] at hc
      split at hc <;> simp_all
    | cons b t' =>
      intro c hc hw
      simp only [squeeze] at hc
      split at hc
      · exact ih c hc hw
      · rcases List.mem_cons.mp hc with h | h
        · subst h
          split at hw <;> simp_all
        · exact ih c h hw

theorem squeeze_fix (l : List Char) (h : NormWs l) : squeeze l = l := by
  obtain ⟨hch, hsp⟩ := h
  induction l with
  | nil => rfl
  | cons a t ih =>
    cases t with
    | nil =>
      simp only [squeeze]
      split
      next hw => rw [hsp a (by simp) hw]
      next => rfl
    | cons b t' =>
      rw [List.chain'_cons] at hch
      have hrec := ih hch.2 (fun c hc hw => hsp c (List.mem_cons_of_mem a hc) hw)
      simp only [squeeze]
      split
      · next hww =>
        simp only [Bool.and_eq_true] at hww
        exact absurd ⟨hww.1, hww.2⟩ hch.1
      · rw [hrec]
        congr 1
        split
        next hw => exact (hsp a (by simp) hw).symm
        next => rfl

theorem head?_dropWhile_not (p : Char → Bool) (l : List Char) :
    ∀ c, (l.dropWhile p).head? = some c → p c = false := by
  induction l with
  | nil => simp
  | cons a t ih =>
    intro c hc
    rw [List.dropWhile_cons] at hc
    split at hc
    · exact ih c hc
    · next hpa =>
      simp only [List.head?_cons, Option.some.injEq] at hc
      subst hc
      simpa using hpa

theorem trimL_suffix (l : List Char) : trimL l <:+ l := List.dropWhile_suffix _

theorem trimR_pre (l : List Char) : trimR l <+: l := by
  unfold trimR
  have h := List.dropWhile_suffix (l := l.reverse) isWsC
  obtain ⟨s, hs⟩ := h
  refine ⟨s.reverse, ?_⟩
  have : (s ++ l.reverse.dropWhile isWsC).reverse = l.reverse.reverse := by rw [hs]
  simpa [List.reverse_append] using this

theorem normWs_sublist (l l' : List Char) (h : NormWs l) (hs : l' <+: l ∨ l' <:+ l) :
    NormWs l' := by
  obtain ⟨hch, hsp⟩ := h
  constructor
  · rcases hs with hp | hp
    · exact hch.prefix hp
    · exact hch.suffix hp
  · intro c hc hw
    refine hsp c ?_ hw
    rcases hs with hp | hp
    · exact hp.sublist.mem hc
    · exact hp.sublist.mem hc

theorem normWs_trimC (l : List Char) (h : NormWs l) : NormWs (trimC l) := by
  refine normWs_sublist _ _ (normWs_sublist _ _ h (Or.inr (trimL_suffix l))) ?_
  exact Or.inl (trimR_pre _)

theorem trimmedEnds_trimC (l : List Char) : TrimmedEnds (trimC l) := by
  constructor
  · intro c hc
    unfold trimC at hc
    have hpre := trimR_pre (trimL l)
    obtain ⟨s, hs⟩ := hpre
    have hh : (trimL l).head? = some c := by
      rw [← hs, List.head?_append, hc]
      rfl
    exact head?_dropWhile_not _ _ c hh
  · intro c hc
    unfold trimC trimR at hc
    rw [List.getLast?_reverse] at hc
    exact head?_dropWhile_not _ _ c hc

theorem trimL_fix (l : List Char) (h : ∀ c, l.head? = some c → isWsC c = false) :
    trimL l = l := by
  cases l with
  | nil => rfl
  | cons a t =>
    unfold trimL
    rw [List.dropWhile_cons, if_neg]
    simp [h a rfl]

theorem trimR_fix (l : List Char) (h : ∀ c, l.getLast? = some c → isWsC c = false) :
    trimR l = l := by
  unfold trimR
  have : l.reverse.dropWhile isWsC = l.reverse := by
    refine trimL_fix l.reverse ?_
    intro c hc
    rw [List.head?_reverse] at hc
    exact h c hc
  rw [this, List.reverse_reverse]

theorem trimC_fix (l : List Char) (h : TrimmedEnds l) : trimC l = l := by
  unfold trimC
  rw [trimL_fix l h.1, trimR_fix l h.2]

theorem normWs_collapseC (l : List Char) : NormWs (collapseC l) :=
  normWs_trimC _ ⟨squeeze_chain l, squeeze_space l⟩

theorem trimmedEnds_collapseC (l : List Char) : TrimmedEnds (collapseC l) :=
  trimmedEnds_trimC _

theorem collapseC_fix (l : List Char) (hn : NormWs l) (ht : TrimmedEnds l) :
    collapseC l = l := by
  unfold collapseC
  rw [squeeze_fix l hn, trimC_fix l ht]

theorem collapseC_idem (l : List Char) : collapseC (collapseC l) = collapseC l :=
  collapseC_fix _ (normWs_collapseC l) (trimmedEnds_collapseC l)

/-! ### Preservation of normal shape under case mapping -/

theorem normWs_map_jsToLower (l : List Char) (h : NormWs l) :
    NormWs (l.map jsToLower) := by
  obtain ⟨hch, hsp⟩ := h
  constructor
  · rw [List.chain'_map]
    refine hch.imp ?_
    intro a b hab hab2
    refine hab ⟨?_, ?_⟩
    · rw [← isWsC_jsToLower a]; exact hab2.1
    · rw [← isWsC_jsToLower b]; exact hab2.2
  · intro c hc hw
    obtain ⟨d, hd, hdc⟩ := List.mem_map.mp hc
    subst hdc
    rw [isWsC_jsToLower] at hw
    rw [hsp d hd hw]
    decide

theorem trimmedEnds_map_jsToLower (l : List Char) (h : TrimmedEnds l) :
    TrimmedEnds (l.map jsToLower) := by
  obtain ⟨h1, h2⟩ := h
  constructor
  · intro c hc
    rw [List.head?_map] at hc
    cases hh : l.head? with
    | none => rw [hh] at hc; simp at hc
    | some d =>
      rw [hh] at hc
      simp only [Option.map_some', Option.some.injEq] at hc
      subst hc
      rw [isWsC_jsToLower]
      exact h1 d hh
  · intro c hc
    rw [List.getLast?_map] at hc
    cases hh : l.getLast? with
    | none => rw [hh] at hc; simp at hc
    | some d =>
      rw [hh] at hc
      simp only [Option.map_some', Option.some.injEq] at hc
      subst hc
      rw [isWsC_jsToLower]
      exact h2 d hh

/-- Capitalisation of the first character,
`name.charAt(0).toUpperCase() + name.slice(1)` (nlp-parser.js line 399). -/
def capFirst : List Char → List Char
  | [] => []
  | c :: cs => jsToUpper c :: cs

/-- Name finishing of stage 3: collapse whitespace, then capitalise the
first character when the whole name is lowercase
(nlp-parser.js lines 395 and 398 to 400). -/
def nameFinish (l : List Char) : List Char :=
  if collapseC l = (collapseC l).map jsToLower then capFirst (collapseC l)
  else collapseC l

/-- Final normalisation of the lookup term: whitespace collapse
(line 394) followed by lowercasing (line 407). -/
def lowCollapse (l : List Char) : List Char := (collapseC l).map jsToLower

theorem normWs_capFirst (l : List Char) (h : NormWs l) : NormWs (capFirst l) := by
  obtain ⟨hch, hsp⟩ := h
  cases l with
  | nil => exact ⟨List.chain'_nil, by simp [capFirst]⟩
  | cons c cs =>
    constructor
    · simp only [capFirst]
      rw [List.chain'_cons'] at hch ⊢
      refine ⟨?_, hch.2⟩
      intro y hy hcontra
      refine hch.1 y hy ⟨?_, hcontra.2⟩
      rw [← isWsC_jsToUpper c]
      exact hcontra.1
    · intro d hd hw
      simp only [capFirst, List.mem_cons] at hd
      rcases hd with hd | hd
      · subst hd
        rw [isWsC_jsToUpper] at hw
        rw [hsp c (by simp) hw]
        decide
      · exact hsp d (by simp [hd]) hw

theorem trimmedEnds_capFirst (l : List Char) (h : TrimmedEnds l) :
    TrimmedEnds (capFirst l) := by
  obtain ⟨h1, h2⟩ := h
  cases l with
  | nil => exact ⟨by simp [capFirst], by simp [capFirst]⟩
  | cons c cs =>
    constructor
    · intro d hd
      simp only [capFirst, List.head?_cons, Option.some.injEq] at hd
      subst hd
      rw [isWsC_jsToUpper]
      exact h1 c rfl
    · intro d hd
      cases cs with
      | nil =>
        simp only [capFirst, List.getLast?_singleton, Option.some.injEq] at hd
        subst hd
        rw [isWsC_jsToUpper]
        exact h2 c (by simp)
      | cons e es =>
        simp only [capFirst, List.getLast?_cons_cons] at hd
        refine h2 d ?_
        rw [List.getLast?_cons_cons]
        exact hd

theorem collapseC_capFirst_collapseC (l : List Char) :
    collapseC (capFirst (collapseC l)) = capFirst (collapseC l) :=
  collapseC_fix _ (normWs_capFirst _ (normWs_collapseC l))
    (trimmedEnds_capFirst _ (trimmedEnds_collapseC l))

theorem nameFinish_idem (l : List Char) : nameFinish (nameFinish l) = nameFinish l := by
  unfold nameFinish
  split
  · next hlo =>
    rw [collapseC_capFirst_collapseC l]
    cases hc : collapseC l with
    | nil =>
      rw [if_pos (by rfl)]
      rfl
    | cons c cs =>
      rw [hc] at hlo
      simp only [List.map_cons, List.cons.injEq] at hlo
      rcases jsToUpper_cases c with hu | ⟨hul, hune⟩
      · have hcond : capFirst (c :: cs) = List.map jsToLower (capFirst (c :: cs)) := by
          simp only [capFirst, hu, List.map_cons]
          rw [← hlo.1, ← hlo.2]
        rw [if_pos hcond]
        simp [capFirst, hu]
      · rw [if_neg]
        intro hcontra
        simp only [capFirst, List.map_cons, List.cons.injEq] at hcontra
        exact hune (hcontra.1.trans hul)
  · next hlo =>
    rw [collapseC_idem l]
    rw [if_neg hlo]

theorem lowCollapse_idem (l : List Char) : lowCollapse (lowCollapse l) = lowCollapse l := by
  unfold lowCollapse
  rw [collapseC_fix _ (normWs_map_jsToLower _ (normWs_collapseC l))
    (trimmedEnds_map_jsToLower _ (trimmedEnds_collapseC l))]
  rw [List.map_map]
  refine List.map_congr_left ?_
  intro a _
  exact jsToLower_idem a

/-! ### Matcher primitives for the embedded regular expressions -/

/-- Case-insensitive literal match.  The pattern is given in lowercase; on
success the consumed original characters and the remainder are returned. -/
def ciLit : List Char → List Char → Option (List Char × List Char)
  | [], cs => some ([], cs)
  | _ :: _, [] => none
  | p :: ps, c :: cs =>
    if jsToLower c = p then
      match ciLit ps cs with
      | some (m, r) => some (c :: m, r)
      | none => none
    else none

/-- Greedy whitespace run, the `\s*` of the regexes: maximal leading
whitespace and the rest. -/
def wsRun (cs : List Char) : List Char × List Char :=
  (cs.takeWhile isWsC, cs.dropWhile isWsC)

/-- Required whitespace, the `\s+` of the regexes. -/
def wsPlus (cs : List Char) : Option (List Char × List Char) :=
  match cs with
  | c :: _ => if isWsC c then some (wsRun cs) else none
  | [] => none

/-- Greedy digit run (`\d*`). -/
def digRun (cs : List Char) : List Char × List Char :=
  (cs.takeWhile isDigitC, cs.dropWhile isDigitC)

/-- Required digits (`\d+`). -/
def digPlus (cs : List Char) : Option (List Char × List Char) :=
  match cs with
  | c :: _ => if isDigitC c then some (digRun cs) else none
  | [] => none

/-- Exact character-sequence test (JavaScript `startsWith`). -/
def startsWithSeq : List Char → List Char → Bool
  | [], _ => true
  | _ :: _, [] => false
  | p :: ps, c :: cs => p = c && startsWithSeq ps cs

/-- Substring test (JavaScript `includes`). -/
def containsSeq (pat : List Char) : List Char → Bool
  | [] => startsWithSeq pat []
  | c :: cs => startsWithSeq pat (c :: cs) || containsSeq pat cs

/-- Case-insensitive prefix test. -/
def ciTest (s : String) (t : List Char) : Bool := (ciLit s.data t).isSome

/-- Cons a character onto the first field of a field list. -/
def consFirst (c : Char) : List (List Char) → List (List Char)
  | f :: r => (c :: f) :: r
  | [] => [[c]]

/-- Split at every occurrence of one character (JavaScript
`split(/\n/)` and the comma stage of `split(/\s*,\s*/)`). -/
def splitOnChar (sep : Char) : List Char → List (List Char)
  | [] => [[]]
  | c :: cs => if c = sep then [] :: splitOnChar sep cs else consFirst c (splitOnChar sep cs)

/-! ### Stage 1: splitIntoBlocks (nlp-parser.js lines 107 to 144) -/

/-- Header rule `/^aisle\s+\d+.*:/i`: the dot cannot cross a newline, so
the colon must appear after the first digit and before any newline. -/
def hdrAisle (t : List Char) : Bool :=
  match ciLit "aisle".data t with
  | some (_, r1) =>
    match wsPlus r1 with
    | some (_, r2) =>
      match r2 with
      | d :: r3 => isDigitC d && (r3.takeWhile (fun c => c ≠ '\n')).contains ':'
      | [] => false
    | none => false
  | none => false

/-- Anchored word-sequence test: the words in order, separated by `\s+`. -/
def wordsTest : List String → List Char → Bool
  | [], _ => true
  | [w], cs => ciTest w cs
  | w :: ws, cs =>
    match ciLit w.data cs with
    | some (_, r) =>
      match wsPlus r with
      | some (_, r2) => wordsTest ws r2
      | none => false
    | none => false

/-- Header rule `/^back\s+of\s+(the\s+)?store/i`. -/
def hdrBackOfStore (t : List Char) : Bool :=
  match ciLit "back".data t with
  | some (_, r1) =>
    match wsPlus r1 with
    | some (_, r2) =>
      match ciLit "of".data r2 with
      | some (_, r3) =>
        match wsPlus r3 with
        | some (_, r4) =>
          (match ciLit "the".data r4 with
           | some (_, r5) =>
             match wsPlus r5 with
             | some (_, r6) => ciTest "store" r6
             | none => ciTest "store" r4
           | none => ciTest "store" r4)
        | none => false
      | none => false
    | none => false
  | none => false

/-- The HEADER_PATTERNS disjunction (lines 61 to 74). -/
def headerTest (t : List Char) : Bool :=
  hdrAisle t || wordsTest ["across", "back"] t || hdrBackOfStore t ||
  wordsTest ["last", "aisle"] t || wordsTest ["first", "aisle"] t ||
  wordsTest ["freezer", "section"] t || wordsTest ["frozen", "section"] t ||
  wordsTest ["dairy", "section"] t || wordsTest ["deli", "section"] t ||
  wordsTest ["produce", "section"] t || wordsTest ["bakery", "section"] t ||
  wordsTest ["meat", "section"] t

/-- Apostrophe character, kept out of string literals. -/
def apoC : Char := Char.ofNat 39

/-- The DIRECTIVE_PATTERNS disjunction (lines 49 to 58); every pattern is
an anchored case-insensitive literal, `dealer'?s? choice` expands into its
four variants in greedy order. -/
def directiveTest (t : List Char) : Bool :=
  ciTest "anything you like" t || ciTest "whatever you like" t ||
  ciTest "surprise us" t || ciTest "whatever looks good" t ||
  ciTest "your choice" t ||
  (ciLit ("dealer".data ++ apoC :: "s choice".data) t).isSome ||
  (ciLit ("dealer".data ++ apoC :: " choice".data) t).isSome ||
  ciTest "dealers choice" t || ciTest "dealer choice" t ||
  ciTest "if something looks" t || ciTest "surprise us if something" t

/-- Length of a match of `\s*\(.*?\)\s*` at the current position; the
returned length is always at least two. -/
def parenMatchLen (cs : List Char) : Option Nat :=
  let w1 := (cs.takeWhile isWsC).length
  match cs.drop w1 with
  | '(' :: r2 =>
    let inner := r2.takeWhile (fun c => c ≠ ')' && c ≠ '\n')
    match r2.drop inner.length with
    | ')' :: r4 => some (w1 + 1 + inner.length + 1 + (r4.takeWhile isWsC).length)
    | _ => none
  | _ => none

/-- Global removal `replace(/\s*\(.*?\)\s*/g, '')` (line 120), scanning
left to right.  The first argument is the number of characters still to
be consumed by the current match, which keeps the recursion structural. -/
def removeParensSkip : Nat → List Char → List Char
  | n + 1, _ :: cs => removeParensSkip n cs
  | _, [] => []
  | 0, c :: cs =>
    match parenMatchLen (c :: cs) with
    | some k => removeParensSkip (k - 1) cs
    | none => c :: removeParensSkip 0 cs

/-- Global removal `replace(/\s*\(.*?\)\s*/g, '')` (line 120). -/
def removeParens (l : List Char) : List Char := removeParensSkip 0 l

/-- Removal `replace(/:.*$/, '')` (line 120); header lines never contain a
newline, on which domain this is the cut at the first colon. -/
def colonCut (t : List Char) : List Char := t.takeWhile (fun c => c ≠ ':')

/-- Derivation of the section label from a header line (line 120). -/
def sectionName (t : List Char) : List Char := trimC (colonCut (removeParens t))

/-- Split at the first colon (`indexOf(':')`, lines 124 to 126). -/
def splitFirstColon (t : List Char) : Option (List Char × List Char) :=
  let pre := t.takeWhile (fun c => c ≠ ':')
  match t.drop pre.length with
  | ':' :: post => some (pre, post)
  | _ => none

inductive BKind where
  | items
  | directive
deriving DecidableEq, Repr

/-- Block of stage 1: the source objects `{ type, text, section, raw }`
(lines 131, 133 and 140).  `sect` models the `section` field. -/
structure Block where
  kind : BKind
  text : List Char
  sect : Option (List Char)
  raw : List Char
deriving DecidableEq, Repr

/-- Line loop of `splitIntoBlocks` with the running section state. -/
def blocksGo : List (List Char) → Option (List Char) → List Block
  | [], _ => []
  | l :: ls, sec =>
    let t := trimC l
    if t.isEmpty then blocksGo ls sec
    else if headerTest t then
      let sName := sectionName t
      let inline :=
        match splitFirstColon t with
        | some (_, post) =>
          let after := trimC post
          if after.isEmpty then []
          else if directiveTest after then [⟨BKind.directive, after, some sName, t⟩]
          else [⟨BKind.items, after, some sName, t⟩]
        | none => []
      inline ++ blocksGo ls (some sName)
    else ⟨BKind.items, t, sec, t⟩ :: blocksGo ls sec

/-- Stage 1, `splitIntoBlocks(text)` (lines 107 to 144). -/
def splitIntoBlocks (text : String) : List Block :=
  blocksGo (splitOnChar '\n' text.data) none

/-! ### Stage 2: expandLine (nlp-parser.js lines 149 to 245) -/

/-- Expanded entry of stage 2: either a directive entry
`{ raw, directive, section }` (lines 151 and 204) or an item-candidate
entry `{ raw, itemText, section, category, sharedQty }` (lines 218 to
224).  In the source a record is a directive entry exactly when its
`directive` field is a nonempty string; the two constructors model these
two record shapes. -/
inductive Entry where
  | directive (raw : List Char) (text : List Char) (sect : Option (List Char))
  | item (raw : List Char) (itemText : List Char) (sect : Option (List Char))
      (category : Option (List Char)) (sharedQty : Option (List Char))
deriving DecidableEq, Repr

/-- Candidates of one alternation branch `words?`: the variant with the
optional trailing `s` first (greedy), then without. -/
def optS (base : String) (t : List Char) : List (List Char × List Char) :=
  (match ciLit (base ++ "s").data t with | some p => [p] | none => []) ++
  (match ciLit base.data t with | some p => [p] | none => [])

/-- Candidates of a single fixed word of the alternation. -/
def oneCand (s : String) (t : List Char) : List (List Char × List Char) :=
  match ciLit s.data t with | some p => [p] | none => []

/-- Candidates of the branch `cold\s*cuts?` of CATEGORY_PREFIX_RE. -/
def coldCutsCands (t : List Char) : List (List Char × List Char) :=
  match ciLit "cold".data t with
  | some (m1, r1) =>
    let (w, r2) := wsRun r1
    (match ciLit "cuts".data r2 with
     | some (m2, r3) => [(m1 ++ w ++ m2, r3)] | none => []) ++
    (match ciLit "cut".data r2 with
     | some (m2, r3) => [(m1 ++ w ++ m2, r3)] | none => [])
  | none => []

/-- Alternation candidates of CATEGORY_PREFIX_RE (line 98), source order. -/
def catCands (t : List Char) : List (List Char × List Char) :=
  optS "fruit" t ++ oneCand "veggies" t ++ optS "vegetable" t ++
  oneCand "cereal" t ++ coldCutsCands t ++ optS "snack" t ++
  optS "drink" t ++ optS "beverage" t ++ optS "meat" t ++
  oneCand "dairy" t ++ oneCand "frozen" t ++ oneCand "bread" t ++
  optS "condiment" t ++ optS "spice" t ++ optS "herb" t

/-- Tail `\s*(?:\([^)]*\)\s*)?:` of CATEGORY_PREFIX_RE; on success the
remainder after the colon. -/
def catTail (cs : List Char) : Option (List Char) :=
  match cs.dropWhile isWsC with
  | '(' :: r2 =>
    let inner := r2.takeWhile (fun c => c ≠ ')')
    (match r2.drop inner.length with
     | ')' :: r3 =>
       (match r3.dropWhile isWsC with
        | ':' :: r4 => some r4
        | _ => none)
     | _ => none)
  | ':' :: r4 => some r4
  | _ => none

/-- First candidate whose tail matches: the backtracking alternation. -/
def firstCatTail : List (List Char × List Char) → Option (List Char × List Char)
  | [] => none
  | (m, r) :: rest =>
    match catTail r with
    | some r2 => some (m, r2)
    | none => firstCatTail rest

/-- Match of CATEGORY_PREFIX_RE against the start of the line (line 161):
captured noun and remainder after the colon. -/
def catMatch (t : List Char) : Option (List Char × List Char) :=
  firstCatTail (catCands t)

/-- Group 2 of `^([^,:]{3,}):\s*(.+)`: after the colon, `\s*` backtracks
from its maximal run until `.+` (which cannot cross a newline) can take at
least one character. -/
def g2 : List Char → Option (List Char)
  | [] => none
  | c :: cs =>
    if isWsC c then
      match g2 cs with
      | some r => some r
      | none =>
        if c = '\n' then none
        else some ((c :: cs).takeWhile (fun d => d ≠ '\n'))
    else some ((c :: cs).takeWhile (fun d => d ≠ '\n'))

/-- Match of the generic qualifier rule `^([^,:]{3,}):\s*(.+)`
(line 170): the raw group 1 and group 2. -/
def genericColonM (cs : List Char) : Option (List Char × List Char) :=
  let pre := cs.takeWhile (fun c => c ≠ ',' && c ≠ ':')
  if pre.length ≥ 3 then
    match cs.drop pre.length with
    | ':' :: rest => (g2 rest).map (fun g => (pre, g))
    | _ => none
  else none

/-- Guard `/^\d+\s+(bag|can|box|pack|ct|lb)s?\s+each$/i` (line 176). -/
def isQtyPref (t : List Char) : Bool :=
  match digPlus t with
  | some (_, r1) =>
    match wsPlus r1 with
    | some (_, r2) =>
      (optS "bag" r2 ++ optS "can" r2 ++ optS "box" r2 ++ optS "pack" r2 ++
       optS "ct" r2 ++ optS "lb" r2).any (fun ur =>
        match wsPlus ur.2 with
        | some (_, r4) =>
          (match ciLit "each".data r4 with
           | some (_, r5) => r5.isEmpty
           | none => false)
        | none => false)
    | none => false
  | none => false

/-- Word-boundary test `/\band\b/i` (line 177). -/
def wordAndGo (prev : Option Char) : List Char → Bool
  | [] => false
  | c :: cs =>
    ((match prev with | none => true | some p => !isWordC p) &&
      (match c :: cs with
       | a :: n :: d :: r =>
         (jsToLower a == 'a') && (jsToLower n == 'n') && (jsToLower d == 'd') &&
           (match r with | [] => true | x :: _ => !isWordC x)
       | _ => false)) || wordAndGo (some c) cs

/-- Test `/\band\b/i.test(after)` of the qualifier fallback. -/
def wordAndTest (t : List Char) : Bool := wordAndGo none t

/-- Alternation candidates of the shared-quantity units
`bag|can|box|pack|ct|lb|bottle|jar|bunch` with optional `s` (line 186). -/
def unitCands9 (t : List Char) : List (List Char × List Char) :=
  optS "bag" t ++ optS "can" t ++ optS "box" t ++ optS "pack" t ++
  optS "ct" t ++ optS "lb" t ++ optS "bottle" t ++ optS "jar" t ++
  optS "bunch" t

/-- Tail `\s+each)\s*:\s*` after a unit candidate: captured tail
characters of group 1 and the remainder after the final `\s*`. -/
def sqTail (r3 : List Char) : Option (List Char × List Char) :=
  match wsPlus r3 with
  | some (w2, r4) =>
    match ciLit "each".data r4 with
    | some (em, r5) =>
      (match r5.dropWhile isWsC with
       | ':' :: r6 => some (w2 ++ em, r6.dropWhile isWsC)
       | _ => none)
    | none => none
  | none => none

/-- Backtracking scan over the unit candidates. -/
def sqScan : List (List Char × List Char) → Option (List Char × List Char)
  | [] => none
  | (um, r3) :: rest =>
    match sqTail r3 with
    | some (tc, r6) => some (um ++ tc, r6)
    | none => sqScan rest

/-- Match of the shared-quantity rule
`/^(\d+\s+(?:bag|...|bunch)s?\s+each)\s*:\s*/i` (line 186): group 1 and
the remainder after the whole match. -/
def sharedQtyM (cs : List Char) : Option (List Char × List Char) :=
  match digPlus cs with
  | some (d, r1) =>
    match wsPlus r1 with
    | some (w1, r2) =>
      (sqScan (unitCands9 r2)).map (fun mr => (d ++ w1 ++ mr.1, mr.2))
    | none => none
  | none => none

/-- Field adjustment of `split(/\s*,\s*/)`: whitespace adjacent to each
comma belongs to the separator match, so every field except the first
loses leading whitespace and every field except the last loses trailing
whitespace. -/
def adjFields : List (List Char) → Bool → List (List Char)
  | [], _ => []
  | [f], first => [if first then f else trimL f]
  | f :: rest, first => (if first then trimR f else trimR (trimL f)) :: adjFields rest false

/-- The comma split `text.split(/\s*,\s*/)` (line 193). -/
def jsSplitCommaWs (cs : List Char) : List (List Char) :=
  adjFields (splitOnChar ',' cs) true

/-- Tail of a `\s+and\s+` separator after its first whitespace character:
the number of further characters the separator consumes. -/
def andSepTail (cs : List Char) : Option Nat :=
  let w1 := (cs.takeWhile isWsC).length
  let r1 := cs.drop w1
  match r1 with
  | a :: n :: d :: r2 =>
    if jsToLower a = 'a' && jsToLower n = 'n' && jsToLower d = 'd' then
      match r2 with
      | e :: r3 => if isWsC e then some (w1 + 3 + 1 + (r3.takeWhile isWsC).length) else none
      | [] => none
    else none
  | _ => none

/-- The split `text.split(/\s+and\s+/i)` (line 240), scanning left to
right; the first argument is the number of characters still to be
consumed by the current separator match. -/
def splitAndSkip : Nat → List Char → List (List Char)
  | n + 1, _ :: cs => splitAndSkip n cs
  | _, [] => [[]]
  | 0, c :: cs =>
    if isWsC c then
      match andSepTail cs with
      | some k => [] :: splitAndSkip k cs
      | none => consFirst c (splitAndSkip 0 cs)
    else consFirst c (splitAndSkip 0 cs)

/-- The split `text.split(/\s+and\s+/i)` (line 240). -/
def splitAndGo (l : List Char) : List (List Char) := splitAndSkip 0 l

/-- The AND_COMPOUNDS table (lines 31 to 46). -/
def andCompounds : List String :=
  ["half and half", "mac and cheese", "macaroni and cheese", "salt and pepper",
   "bread and butter", "peanut butter and jelly", "chips and dip",
   "rice and beans", "oil and vinegar", "cream and sugar", "ham and cheese",
   "surf and turf", "fruit and nut", "franks and beans"]

/-- `splitOnAnd(text)` (lines 230 to 245). -/
def splitOnAnd (text : List Char) : List (List Char) :=
  let lower := text.map jsToLower
  if andCompounds.any (fun comp => containsSeq comp.data lower) then [text]
  else
    let parts := splitAndGo text
    if parts.length > 1 then (parts.map trimC).filter (fun p => !p.isEmpty)
    else [text]

/-- Removal of a single trailing period, `replace(/\.\s*$/, '')`
(line 209): the leftmost dot followed only by whitespace. -/
def stripEndPeriod : List Char → List Char
  | [] => []
  | c :: cs => if c = '.' && cs.all isWsC then [] else c :: stripEndPeriod cs

/-- Segment loop of `expandLine` (lines 197 to 215): directive entries
are pushed into the results immediately, item texts are collected and
appended after the loop. -/
def segLoop (raw : List Char) (sec : Option (List Char)) :
    List (List Char) → List Entry × List (List Char)
  | [] => ([], [])
  | seg :: rest =>
    let t := trimC seg
    if t.isEmpty then segLoop raw sec rest
    else if directiveTest t then
      let r := segLoop raw sec rest
      (Entry.directive raw t sec :: r.1, r.2)
    else
      let cleaned := trimC (stripEndPeriod t)
      if cleaned.isEmpty then segLoop raw sec rest
      else
        let r := segLoop raw sec rest
        (r.1, splitOnAnd cleaned ++ r.2)

/-- Category extraction of `expandLine` (lines 159 to 182): the remaining
text and the optional category. -/
def catStage (text : List Char) : List Char × Option (List Char) :=
  match catMatch text with
  | some (m, rest) => (trimC rest, some (trimC m))
  | none =>
    match genericColonM text with
    | some (pre, gp2) =>
      let before := trimC pre
      let after := trimC gp2
      if !isQtyPref before && (after.contains ',' || wordAndTest after) then
        (after, some before)
      else (text, none)
    | none => (text, none)

/-- Shared-quantity extraction of `expandLine` (lines 184 to 190): the
remaining text and the optional shared quantity. -/
def sqStage (text : List Char) : List Char × Option (List Char) :=
  match sharedQtyM text with
  | some (g1, rest) => (trimC rest, some (trimC g1))
  | none => (text, none)

/-- Comma segments of an items line after both extractions. -/
def lineSegs (text : List Char) : List (List Char) :=
  jsSplitCommaWs (sqStage (catStage text).1).1

/-- Stage 2, `expandLine(block)` (lines 149 to 228). -/
def expandLine (b : Block) : List Entry :=
  match b.kind with
  | BKind.directive => [Entry.directive b.raw b.text b.sect]
  | BKind.items =>
    let segs := lineSegs b.text
    let dsIts := segLoop b.raw b.sect segs
    dsIts.1 ++ dsIts.2.map
      (fun it => Entry.item b.raw (trimC it) b.sect (catStage b.text).2 (sqStage (catStage b.text).1).2)

/-! ### Stage 3: parseItem (nlp-parser.js lines 250 to 412) -/

/-- The ABBREVIATIONS table (lines 10 to 28). -/
def abbrevs : List (String × String) :=
  [("oj", "orange juice"), ("evoo", "extra virgin olive oil"),
   ("pb", "peanut butter"), ("pb&j", "peanut butter and jelly"),
   ("dz", "dozen"), ("btl", "bottle"), ("btls", "bottles"),
   ("pkg", "package"), ("pkt", "packet"), ("tbsp", "tablespoon"),
   ("tsp", "teaspoon"), ("gal", "gallon"), ("qt", "quart"), ("pt", "pint"),
   ("lg", "large"), ("sm", "small"), ("med", "medium")]

/-- Whole-name lookup `ABBREVIATIONS[nameLower]` as a plain finite map
over the table's own keys (line 339). -/
def abbrevFind (k : List Char) : Option (List Char) :=
  match abbrevs.find? (fun p => p.1.data == k) with
  | some p => some p.2.data
  | none => none

/-- Match length and capture of `\(([^)]+)\)` at the current position
(line 271); the content must be nonempty. -/
def noteMatchLen (cs : List Char) : Option (Nat × List Char) :=
  match cs with
  | '(' :: r1 =>
    let inner := r1.takeWhile (fun c => c ≠ ')')
    if inner.isEmpty then none
    else
      match r1.drop inner.length with
      | ')' :: _ => some (1 + inner.length + 1, inner)
      | _ => none
  | _ => none

/-- Global notes extraction `replace(/\(([^)]+)\)/g, ...)` (lines 270 to
274): the text with the spans removed and the trimmed captures in order.
A match is at least three characters long, so dropping `k - 1` of the
tail is exact. -/
def extractNotesSkip : Nat → List Char → List Char × List (List Char)
  | n + 1, _ :: cs => extractNotesSkip n cs
  | _, [] => ([], [])
  | 0, c :: cs =>
    match noteMatchLen (c :: cs) with
    | some (k, inner) =>
      let rest := extractNotesSkip (k - 1) cs
      (rest.1, trimC inner :: rest.2)
    | none =>
      let rest := extractNotesSkip 0 cs
      (c :: rest.1, rest.2)

/-- Notes extraction over the whole item text. -/
def extractNotes (l : List Char) : List Char × List (List Char) :=
  extractNotesSkip 0 l

/-- Match length of `1\/2\s*&\s*1\/2` at the current position (line 280). -/
def hh1Len (cs : List Char) : Option Nat :=
  match cs with
  | '1' :: '/' :: '2' :: r1 =>
    let w1 := (r1.takeWhile isWsC).length
    (match r1.drop w1 with
     | '&' :: r2 =>
       let w2 := (r2.takeWhile isWsC).length
       (match r2.drop w2 with
        | '1' :: '/' :: '2' :: _ => some (3 + w1 + 1 + w2 + 3)
        | _ => none)
     | _ => none)
  | _ => none

/-- Match length of `1\/2\s+and\s+1\/2` at the current position
(line 281, case-insensitive on `and`). -/
def hh2Len (cs : List Char) : Option Nat :=
  match cs with
  | '1' :: '/' :: '2' :: r1 =>
    (match r1 with
     | e :: _ =>
       if isWsC e then
         let w1 := (r1.takeWhile isWsC).length
         (match r1.drop w1 with
          | a :: n :: d :: r3 =>
            if (jsToLower a == 'a') && (jsToLower n == 'n') && (jsToLower d == 'd') then
              (match r3 with
               | f :: _ =>
                 if isWsC f then
                   let w2 := (r3.takeWhile isWsC).length
                   (match r3.drop w2 with
                    | '1' :: '/' :: '2' :: _ => some (3 + w1 + 3 + w2 + 3)
                    | _ => none)
                 else none
               | [] => none)
            else none
          | _ => none)
       else none
     | [] => none)
  | _ => none

/-- Global replace by the literal `half and half` (lines 280 to 281),
scanning left to right with a skip counter for the current match. -/
def hhReplaceSkip (m : List Char → Option Nat) : Nat → List Char → List Char
  | n + 1, _ :: cs => hhReplaceSkip m n cs
  | _, [] => []
  | 0, c :: cs =>
    match m (c :: cs) with
    | some k => "half and half".data ++ hhReplaceSkip m (k - 1) cs
    | none => c :: hhReplaceSkip m 0 cs

/-- Global replace by the literal `half and half` (lines 280 to 281). -/
def hhReplace (m : List Char → Option Nat) (l : List Char) : List Char :=
  hhReplaceSkip m 0 l

/-- Test `/^dz\b/i` (line 285): `dz` followed by a word boundary. -/
def dzTest (cs : List Char) : Bool :=
  match cs with
  | c1 :: c2 :: rest =>
    (jsToLower c1 == 'd') && (jsToLower c2 == 'z') &&
      (match rest with | [] => true | x :: _ => !isWordC x)
  | _ => false

/-- Strip `replace(/^dz\s*/i, '')` followed by `trim` (line 287). -/
def dzStrip (cs : List Char) : List Char :=
  trimC ((cs.drop 2).dropWhile isWsC)

/-- Tail `\s+x\s*(\d+)\s*$` of the trailing-quantity rule (line 295):
on success the captured digits. -/
def txTail (cs : List Char) : Option (List Char) :=
  match wsPlus cs with
  | some (_, r1) =>
    (match r1 with
     | x :: r2 =>
       if jsToLower x == 'x' then
         match digPlus (r2.dropWhile isWsC) with
         | some (d, r4) => if r4.all isWsC then some d else none
         | none => none
       else none
     | [] => none)
  | none => none

/-- Scan of the lazy group `(.+?)`: the earliest split whose suffix
matches the tail; the prefix cannot cross a newline. -/
def txScan : List Char → Option (List Char × List Char)
  | [] => none
  | c :: cs =>
    match txTail (c :: cs) with
    | some d => some ([], d)
    | none =>
      if c = '\n' then none
      else
        match txScan cs with
        | some (p, d) => some (c :: p, d)
        | none => none

/-- Match of `/^(.+?)\s+x\s*(\d+)\s*$/i` (line 295): group 1 and the
captured digits. -/
def trailingXM (cs : List Char) : Option (List Char × List Char) :=
  match cs with
  | [] => none
  | c :: cs' =>
    if c = '\n' then none
    else
      match txScan cs' with
      | some (p, d) => some (c :: p, d)
      | none => none

/-- Greedy parse of `\d+[-–]?\d*`.  Any backtracking of this group would
place a digit or dash where the following `\s+` must match, so only the
greedy parse can succeed. -/
def dashQtyHead (cs : List Char) : Option (List Char × List Char) :=
  match digPlus cs with
  | some (d1, r1) =>
    (match r1 with
     | dash :: r2 =>
       if dash = '-' ∨ dash = '–' then
         let dr := digRun r2
         some (d1 ++ dash :: dr.1, dr.2)
       else some (d1, r1)
     | [] => some (d1, r1))
  | none => none

/-- Candidates of the branch `bunche?s?` in greedy order. -/
def bunchCands (t : List Char) : List (List Char × List Char) :=
  oneCand "bunches" t ++ oneCand "bunche" t ++ oneCand "bunchs" t ++ oneCand "bunch" t

/-- Candidates of `large\s+packs?\s+of`. -/
def largePacksOfCands (t : List Char) : List (List Char × List Char) :=
  match ciLit "large".data t with
  | some (m1, r1) =>
    (match wsPlus r1 with
     | some (w1, r2) =>
       (oneCand "packs" r2 ++ oneCand "pack" r2).filterMap (fun pr =>
         match wsPlus pr.2 with
         | some (w2, r4) =>
           (match ciLit "of".data r4 with
            | some (m3, r5) => some (m1 ++ w1 ++ pr.1 ++ w2 ++ m3, r5)
            | none => none)
         | none => none)
     | none => [])
  | none => []

/-- Candidates of `packs?\s+of`. -/
def packsOfCands (t : List Char) : List (List Char × List Char) :=
  (oneCand "packs" t ++ oneCand "pack" t).filterMap (fun pr =>
    match wsPlus pr.2 with
    | some (w2, r4) =>
      (match ciLit "of".data r4 with
       | some (m3, r5) => some (pr.1 ++ w2 ++ m3, r5)
       | none => none)
    | none => none)

/-- Unit alternation of the leading-quantity rule (line 303), source
order; note that `boxes?` matches `boxe` and `boxes` but not `box`. -/
def unitCandsQty (t : List Char) : List (List Char × List Char) :=
  optS "can" t ++ optS "boxe" t ++ optS "bag" t ++ optS "pack" t ++
  optS "bottle" t ++ optS "jar" t ++ bunchCands t ++
  largePacksOfCands t ++ packsOfCands t

/-- The tail `\s+(.+)`: one whitespace character, then the backtracking
`\s*(.+)` of `g2`. -/
def wdp (cs : List Char) : Option (List Char) :=
  match cs with
  | c :: cs' => if isWsC c then g2 cs' else none
  | [] => none

/-- Backtracking scan of the unit candidates against the final
`\s+(.+)`. -/
def lqScan (g1 : List Char) : List (List Char × List Char) →
    Option (List Char × List Char × List Char)
  | [] => none
  | (um, r3) :: rest =>
    match wdp r3 with
    | some g3 => some (g1, um, g3)
    | none => lqScan g1 rest

/-- Match of the leading-quantity rule
`/^(\d+[-–]?\d*)\s+(cans?|boxes?|...)\s+(.+)/i` (line 303). -/
def leadingQtyM (cs : List Char) : Option (List Char × List Char × List Char) :=
  match dashQtyHead cs with
  | some (g1, r1) =>
    (match wsPlus r1 with
     | some (_, r2) => lqScan g1 (unitCandsQty r2)
     | none => none)
  | none => none

/-- Second alternative `\d+` of the leading-number rule. -/
def lnAlt2 (cs : List Char) : Option (List Char × List Char) :=
  match digPlus cs with
  | some (d1, r1) => (wdp r1).map (fun g => (d1, g))
  | none => none

/-- Match of the leading-number rule `^(\d+[-–]\d+|\d+)\s+(.+)`
(line 312): group 1 and group 2. -/
def leadingNumM (cs : List Char) : Option (List Char × List Char) :=
  match digPlus cs with
  | some (d1, r1) =>
    (match r1 with
     | dash :: r2 =>
       if dash = '-' ∨ dash = '–' then
         match digPlus r2 with
         | some (d2, r3) =>
           (match wdp r3 with
            | some gr => some (d1 ++ dash :: d2, gr)
            | none => lnAlt2 cs)
         | none => lnAlt2 cs
       else lnAlt2 cs
     | [] => lnAlt2 cs)
  | none => none

/-- Quantity extraction of stage 3 (lines 291 to 321): the three rules in
priority order, producing the quantity and the remaining name. -/
def qtyExtract (nm : List Char) : List Char × List Char :=
  match trailingXM nm with
  | some (pre, d) => (d, trimC pre)
  | none =>
    match leadingQtyM nm with
    | some (g1, um, g3) => (trimC (g1 ++ ' ' :: um), trimC g3)
    | none =>
      match leadingNumM nm with
      | some (g1, rest) =>
        if (match rest with | c :: _ => isLowerC c | [] => false) && rest.length ≤ 2 then
          ([], nm)
        else (g1, trimC rest)
      | none => ([], nm)

/-- Group `(.+)$` after backtracking `\s*`: the group must reach the end
of the string without crossing a newline. -/
def g2end (cs : List Char) : Option (List Char) :=
  let t := cs.dropWhile isWsC
  if !t.isEmpty then
    if t.all (fun c => c ≠ '\n') then some t else none
  else
    match cs.getLast? with
    | some c => if c ≠ '\n' then some [c] else none
    | none => none

/-- Tail of the `or` separator `\s+or\s+(.+)$` at the current position:
group 2 on success. -/
def orSepTail (cs : List Char) : Option (List Char) :=
  match cs with
  | c :: cs' =>
    if isWsC c then
      match (c :: cs').dropWhile isWsC with
      | o :: r :: r2 =>
        if (jsToLower o == 'o') && (jsToLower r == 'r') then
          match r2 with
          | e :: r3 => if isWsC e then g2end r3 else none
          | [] => none
        else none
      | _ => none
    else none
  | [] => none

/-- Scan of the lazy group of `/^(.+?)\s+or\s+(.+)$/i` (line 349). -/
def orScan : List Char → Option (List Char × List Char)
  | [] => none
  | c :: cs =>
    match orSepTail (c :: cs) with
    | some gr => some ([], gr)
    | none =>
      if c = '\n' then none
      else
        match orScan cs with
        | some (p, g) => some (c :: p, g)
        | none => none

/-- Match of `/^(.+?)\s+or\s+(.+)$/i`: raw groups 1 and 2. -/
def orMatchM (cs : List Char) : Option (List Char × List Char) :=
  match cs with
  | [] => none
  | c :: cs' =>
    if c = '\n' then none
    else
      match orScan cs' with
      | some (p, g) => some (c :: p, g)
      | none => none

/-- The split `right.split(/\s+/)` (lines 356 to 357): fields between
whitespace runs, with empty edge fields when the string starts or ends
with whitespace. -/
def splitWsSkip : Nat → List Char → List (List Char)
  | n + 1, _ :: cs => splitWsSkip n cs
  | _, [] => [[]]
  | 0, c :: cs =>
    if isWsC c then [] :: splitWsSkip ((cs.takeWhile isWsC).length) cs
    else consFirst c (splitWsSkip 0 cs)

/-- The split `split(/\s+/)` over the whole string. -/
def splitWsGo (l : List Char) : List (List Char) := splitWsSkip 0 l

/-- The `or`-alternative resolution (lines 349 to 374). -/
def orResolve (lk : List Char) : List Char :=
  match orMatchM lk with
  | none => lk
  | some (g1, gr2) =>
    let left := trimC g1
    let right := trimC gr2
    let rightWords := splitWsGo right
    let leftWords := splitWsGo left
    let lastRight := (rightWords.getLast?.getD []).map jsToLower
    let lastLeft := (leftWords.getLast?.getD []).map jsToLower
    if lastRight = lastLeft then lastRight
    else if rightWords.length > 1 then rightWords.getLast?.getD []
    else if leftWords.length > 1 then leftWords.getLast?.getD []
    else right

/-- The STRIP_PREFIXES table (lines 77 to 81). -/
def stripPrefTable : List String :=
  ["plain", "fresh", "deli", "organic", "raw", "whole", "natural",
   "extra virgin", "extra", "large", "small", "medium",
   "salted", "unsalted", "honey", "smoked"]

/-- One pass of the prefix-stripping loop (lines 377 to 383): compare the
lowercased term against each table word plus a space, in order. -/
def stripPrefs (term : List Char) : List Char :=
  stripPrefTable.foldl
    (fun t p =>
      if startsWithSeq (p.data ++ [' ']) (t.map jsToLower) then
        trimC (t.drop p.data.length)
      else t)
    term

/-- Full-suffix test `\s+w1\s+w2...$` for a word sequence. -/
def endsWsWords : List String → List Char → Bool
  | [], cs => cs.isEmpty
  | w :: rest, cs =>
    match wsPlus cs with
    | some (_, r1) =>
      (match ciLit w.data r1 with
       | some (_, r2) => endsWsWords rest r2
       | none => false)
    | none => false

/-- Single replace of a suffix pattern: the leftmost position whose whole
remainder matches the pattern is cut (lines 386 to 388). -/
def stripSufOnce (m : List Char → Bool) : List Char → List Char
  | [] => []
  | c :: cs => if m (c :: cs) then [] else c :: stripSufOnce m cs

/-- The STRIP_SUFFIXES matchers (lines 84 to 94), source order; the `s?`
branches expand into their variants in greedy order. -/
def stripSufMatchers : List (List Char → Bool) :=
  [endsWsWords ["we", "eat"], endsWsWords ["we", "like"],
   endsWsWords ["we", "use"], endsWsWords ["we", "need"],
   endsWsWords ["in", "a", "bag"],
   fun cs => endsWsWords ["in", "bags"] cs || endsWsWords ["in", "bag"] cs,
   endsWsWords ["in", "water"],
   fun cs => endsWsWords ["cans"] cs || endsWsWords ["can"] cs,
   fun cs => endsWsWords ["bottles"] cs || endsWsWords ["bottle"] cs]

/-- The suffix-stripping loop: each pattern replaced once then trimmed. -/
def stripSufs (term : List Char) : List Char :=
  stripSufMatchers.foldl (fun t m => trimC (stripSufOnce m t)) term

/-- Global replace `replace(/\bveggies\b/gi, 'vegetables')` (line 391),
scanning with the previous character for the word boundary; the skip
counter consumes the rest of the matched word. -/
def vegSkip : Option Char → Nat → List Char → List Char
  | prev, n + 1, _ :: cs => vegSkip prev n cs
  | _, _, [] => []
  | prev, 0, c :: cs =>
    if ((match prev with | none => true | some p => !isWordC p) &&
        ciTest "veggies" (c :: cs) &&
        (match (c :: cs).drop 7 with | [] => true | x :: _ => !isWordC x)) then
      "vegetables".data ++ vegSkip ((cs.drop 5).head?) 6 cs
    else c :: vegSkip (some c) 0 cs

/-- Global replace `replace(/\bveggies\b/gi, 'vegetables')` (line 391). -/
def vegGo (prev : Option Char) (l : List Char) : List Char := vegSkip prev 0 l

/-- Lookup-term derivation from the (possibly expanded) name (lines 344
to 394 and the lowercasing of line 407). -/
def lookupDerive (nm : List Char) : List Char :=
  lowCollapse (vegGo none (stripSufs (stripPrefs (orResolve nm))))

/-- The `x || null` conversion of lines 408 to 409: an empty string is
replaced by null. -/
def jsOrNull (o : Option (List Char)) : Option (List Char) :=
  match o with
  | some [] => none
  | x => x

/-- Terminal record of the pipeline (§3 of the specification and lines
252 to 261, 402 to 411 of the source).  `sect` models `section`. -/
structure ParsedItem where
  raw : String
  name : Option String
  qty : String
  notes : String
  lookupTerm : Option String
  category : Option String
  sect : Option String
  directive : Option String
deriving DecidableEq, Repr

/-- Intermediate values of stage 3 shared by `parseItem` and the crash
model: notes, the dozen flag, and the name after quantity extraction. -/
structure Pre where
  notes : List Char
  dz : Bool
  qty : List Char
  name : List Char
deriving Repr

/-- Steps 1 to 3 of stage 3 (lines 269 to 330 before the shared-quantity
fallback): notes, shorthand normalisation, quantity extraction and the
dozen multiplier. -/
def itemPre (itxt : List Char) : Pre :=
  let en := extractNotes itxt
  let text1 := trimC en.1
  let notes := List.intercalate ("; ".data) en.2
  let text3 := hhReplace hh2Len (hhReplace hh1Len text1)
  let dzFlag := dzTest text3
  let text4 := if dzFlag then dzStrip text3 else text3
  let qn := qtyExtract text4
  let qty1 :=
    if dzFlag then
      (if qn.1.isEmpty then "dozen".data else qn.1 ++ ' ' :: "dozen".data)
    else qn.1
  ⟨notes, dzFlag, qty1, qn.2⟩

/-- Abbreviation expansion of the whole name (lines 337 to 341): the
name after quantity extraction, replaced by its table expansion when the
lowercased trimmed name is exactly a table key. -/
def nameResolved (itxt : List Char) : List Char :=
  match abbrevFind (trimC ((itemPre itxt).name.map jsToLower)) with
  | some v => v
  | none => (itemPre itxt).name

/-- Quantity after the shared-quantity fallback (lines 332 to 335). -/
def qtyResolved (itxt : List Char) (sq : Option (List Char)) : List Char :=
  if (itemPre itxt).qty.isEmpty then
    (match sq with
     | some q => if q.isEmpty then (itemPre itxt).qty else q
     | none => (itemPre itxt).qty)
  else (itemPre itxt).qty

/-- Stage 3, `parseItem(entry)` (lines 250 to 412). -/
def parseItem (e : Entry) : ParsedItem :=
  match e with
  | Entry.directive raw d sec =>
    { raw := String.mk raw, name := none, qty := "", notes := "",
      lookupTerm := none, category := none,
      sect := (jsOrNull sec).map String.mk, directive := some (String.mk d) }
  | Entry.item raw itxt sec cat sq =>
    { raw := String.mk raw,
      name := some (String.mk (nameFinish (nameResolved itxt))),
      qty := String.mk (qtyResolved itxt sq),
      notes := String.mk (itemPre itxt).notes,
      lookupTerm := some (String.mk (lookupDerive (nameResolved itxt))),
      category := (jsOrNull cat).map String.mk,
      sect := (jsOrNull sec).map String.mk,
      directive := none }

/-- The pipeline, `parseShoppingList(text)` (lines 417 to 425). -/
def parseShoppingList (text : String) : List ParsedItem :=
  ((splitIntoBlocks text).flatMap expandLine).map parseItem

/-! ### JavaScript property-access model for the abbreviation lookup

Line 339 reads `ABBREVIATIONS[nameLower]` on an object literal.  In
JavaScript this access also reaches the inherited properties of
`Object.prototype`; each of them is a truthy non-string, `name` then
becomes a non-string value and `lookupTerm.match(...)` on line 349 throws
a TypeError.  `parseItemJS` returns `none` for this abort. -/

/-- Own property names of `Object.prototype` reachable by a string key. -/
def protoProps : List String :=
  ["constructor", "hasOwnProperty", "isPrototypeOf", "propertyIsEnumerable",
   "toLocaleString", "toString", "valueOf", "__defineGetter__",
   "__defineSetter__", "__lookupGetter__", "__lookupSetter__", "__proto__"]

/-- Whether stage 3 on this entry reaches the inherited-property crash. -/
def jsCrash (e : Entry) : Bool :=
  match e with
  | Entry.directive _ _ _ => false
  | Entry.item _ itxt _ _ _ =>
    let nameLower := trimC ((itemPre itxt).name.map jsToLower)
    (abbrevFind nameLower).isNone && protoProps.any (fun p => p.data == nameLower)

/-- Stage 3 under JavaScript property-access semantics: `none` models the
thrown TypeError. -/
def parseItemJS (e : Entry) : Option ParsedItem :=
  if jsCrash e then none else some (parseItem e)

/-- The pipeline under JavaScript property-access semantics: an exception
in any entry aborts the whole run. -/
def parseShoppingListJS (text : String) : Option (List ParsedItem) :=
  ((splitIntoBlocks text).flatMap expandLine).mapM parseItemJS

/-! ### Helper lemmas about the stages -/

theorem trimC_idem (l : List Char) : trimC (trimC l) = trimC l :=
  trimC_fix _ (trimmedEnds_trimC l)

/-- Specification-side view of the segment loop: the directive entries of
a line, in left-to-right segment order. -/
def dirEntriesOf (raw : List Char) (sec : Option (List Char))
    (segs : List (List Char)) : List Entry :=
  segs.filterMap (fun seg =>
    let t := trimC seg
    if !t.isEmpty && directiveTest t then some (Entry.directive raw t sec) else none)

/-- Specification-side view of the segment loop: the item texts of a
line, in left-to-right segment order. -/
def itemTextsOf (segs : List (List Char)) : List (List Char) :=
  segs.flatMap (fun seg =>
    let t := trimC seg
    if !t.isEmpty && !directiveTest t then
      (let cleaned := trimC (stripEndPeriod t)
       if cleaned.isEmpty then [] else splitOnAnd cleaned)
    else [])

theorem segLoop_eq (raw : List Char) (sec : Option (List Char))
    (segs : List (List Char)) :
    segLoop raw sec segs = (dirEntriesOf raw sec segs, itemTextsOf segs) := by
  induction segs with
  | nil => rfl
  | cons s rest ih =>
    simp only [segLoop, dirEntriesOf, itemTextsOf, List.filterMap_cons,
      List.flatMap_cons, ih]
    by_cases h1 : (trimC s).isEmpty
    · simp [h1, dirEntriesOf, itemTextsOf]
    · by_cases h2 : directiveTest (trimC s)
      · simp [h1, h2, dirEntriesOf, itemTextsOf]
      · by_cases h3 : (trimC (stripEndPeriod (trimC s))).isEmpty
        · simp [h1, h2, h3, dirEntriesOf, itemTextsOf]
        · simp [h1, h2, h3, dirEntriesOf, itemTextsOf]

theorem parseItem_excl (e : Entry) :
    ((parseItem e).name.isSome ∧ (parseItem e).directive = none) ∨
      ((parseItem e).name = none ∧ (parseItem e).directive.isSome) := by
  cases e <;> simp [parseItem]

/-! ### Claims -/

/-- C1, counterexample: on the items line `milk, surprise us, eggs` the
expander emits the directive entry of the middle segment before the item
entries of both surrounding segments, so the entries do not appear in
left-to-right segment order with the directive at its original
position. -/
theorem claim1_counterexample :
    expandLine ⟨BKind.items, "milk, surprise us, eggs".data, none,
        "milk, surprise us, eggs".data⟩ =
      [Entry.directive "milk, surprise us, eggs".data "surprise us".data none,
       Entry.item "milk, surprise us, eggs".data "milk".data none none none,
       Entry.item "milk, surprise us, eggs".data "eggs".data none none none] := by
  decide

/-- C1, amended: within one items line all directive entries are emitted
first, in left-to-right segment order, followed by all item entries in
left-to-right segment order (directives of a line float to the front of
that line; across blocks source order is preserved by the orchestrator's
concatenation). -/
theorem claim1_amended (raw text : List Char) (sec : Option (List Char)) :
    expandLine ⟨BKind.items, text, sec, raw⟩ =
      dirEntriesOf raw sec (lineSegs text) ++
      (itemTextsOf (lineSegs text)).map
        (fun it => Entry.item raw (trimC it) sec (catStage text).2
          (sqStage (catStage text).1).2) := by
  simp only [expandLine, segLoop_eq]

/-- C2: every record of the pipeline satisfies the exclusivity invariant:
either the name is set and the directive is null, or the name is null and
the directive is set. -/
theorem claim2_exclusivity (text : String) (p : ParsedItem)
    (hp : p ∈ parseShoppingList text) :
    (p.name.isSome ∧ p.directive = none) ∨ (p.name = none ∧ p.directive.isSome) := by
  obtain ⟨e, _, rfl⟩ := List.mem_map.mp hp
  exact parseItem_excl e

/-- C2, witness at the single-line document `milk`. -/
theorem claim2_exclusivity_witness :
    (({ raw := "milk", name := some "Milk", qty := "", notes := "",
        lookupTerm := some "milk", category := none, sect := none,
        directive := none } : ParsedItem).name.isSome ∧
      ({ raw := "milk", name := some "Milk", qty := "", notes := "",
         lookupTerm := some "milk", category := none, sect := none,
         directive := none } : ParsedItem).directive = none) ∨
    (({ raw := "milk", name := some "Milk", qty := "", notes := "",
        lookupTerm := some "milk", category := none, sect := none,
        directive := none } : ParsedItem).name = none ∧
      ({ raw := "milk", name := some "Milk", qty := "", notes := "",
         lookupTerm := some "milk", category := none, sect := none,
         directive := none } : ParsedItem).directive.isSome) :=
  claim2_exclusivity "milk"
    { raw := "milk", name := some "Milk", qty := "", notes := "",
      lookupTerm := some "milk", category := none, sect := none,
      directive := none } (by decide)

/-- C3: the claim of totality fails on the real code.  On the single-line
document `constructor` the abbreviation lookup `ABBREVIATIONS[nameLower]`
reaches the inherited `Object.prototype.constructor`, the name becomes a
function, and `lookupTerm.match(...)` throws a TypeError, aborting the
run; under the intended finite-table semantics the same input parses to
one record. -/
theorem claim3_proto_crash :
    parseShoppingListJS "constructor" = none ∧
      (parseShoppingList "constructor").length = 1 := by
  exact ⟨by decide, by decide⟩

/-- C5, counterexample: on `4 oz chicken` the word following the number
(`oz`) is lowercase and two characters long, so by the claim the number
must be left in the name; the code instead tests the whole remainder
(`oz chicken`, longer than two characters) and consumes the number as the
quantity. -/
theorem claim5_counterexample :
    (parseItem (Entry.item "4 oz chicken".data "4 oz chicken".data
        none none none)).qty = "4" ∧
      (parseItem (Entry.item "4 oz chicken".data "4 oz chicken".data
        none none none)).name = some "Oz chicken" := by
  exact ⟨by decide, by decide⟩

/-- C5, amended: when the two earlier quantity rules fail and the
leading-number rule matches, the number is consumed unless the ENTIRE
remaining text (not the following word) starts with a lowercase letter
and is at most two characters long; in that case the number stays in the
name. -/
theorem claim5_amended (nm g1 rest : List Char)
    (h1 : trailingXM nm = none) (h2 : leadingQtyM nm = none)
    (h3 : leadingNumM nm = some (g1, rest)) :
    qtyExtract nm =
      if (match rest with | c :: _ => isLowerC c | [] => false) && rest.length ≤ 2 then
        ([], nm)
      else (g1, trimC rest) := by
  unfold qtyExtract
  simp only [h1, h2, h3]
  cases rest <;> rfl

/-- C5, amended, witness at `4 oz chicken`. -/
theorem claim5_amended_witness :
    qtyExtract "4 oz chicken".data = ("4".data, "oz chicken".data) :=
  (claim5_amended "4 oz chicken".data "4".data "oz chicken".data
    (by decide) (by decide) (by decide)).trans (by decide)

/-- C6, counterexample: `plain yogurt` is itself an output of the lookup
derivation (on the name `fresh plain yogurt`), yet running the derivation
on it strips the prefix `plain` and yields `yogurt`, so the full
derivation is not idempotent. -/
theorem claim6_counterexample :
    lookupDerive "fresh plain yogurt".data = "plain yogurt".data ∧
      lookupDerive "plain yogurt".data = "yogurt".data ∧
      "plain yogurt".data ≠ "yogurt".data := by
  exact ⟨by decide, by decide, by decide⟩

/-- C6, amended: the whitespace and case normalisations are idempotent:
name finishing (collapse plus conditional capitalisation) and the final
collapse-then-lowercase of the lookup derivation are both idempotent; the
full derivation is not, because prefix stripping can apply again. -/
theorem claim6_amended (l : List Char) :
    nameFinish (nameFinish l) = nameFinish l ∧
      lowCollapse (lowCollapse l) = lowCollapse l :=
  ⟨nameFinish_idem l, lowCollapse_idem l⟩

/-- C9: parsing the single line `Dz eggs x2` yields exactly one record,
with name `Eggs` and quantity `2 dozen`. -/
theorem claim9_dz_eggs :
    parseShoppingList "Dz eggs x2" =
      [{ raw := "Dz eggs x2", name := some "Eggs", qty := "2 dozen",
         notes := "", lookupTerm := some "eggs", category := none,
         sect := none, directive := none }] := by
  decide

/-! ### Normalisation facts for the lookup term (claim C8) -/

/-- No two adjacent characters are both spaces: the formal reading of
"contains no run of two or more consecutive space characters". -/
def NoTwoSpaces (l : List Char) : Prop :=
  l.Chain' (fun a b => ¬(a = ' ' ∧ b = ' '))

theorem normWs_noTwoSpaces (l : List Char) (h : NormWs l) : NoTwoSpaces l := by
  refine h.1.imp ?_
  intro a b hab h2
  exact hab ⟨by rw [h2.1]; decide, by rw [h2.2]; decide⟩

theorem lookupDerive_lower_fix (nm : List Char) :
    (lookupDerive nm).map jsToLower = lookupDerive nm := by
  unfold lookupDerive lowCollapse
  generalize vegGo none (stripSufs (stripPrefs (orResolve nm))) = X
  rw [List.map_map]
  exact List.map_congr_left (fun a _ => jsToLower_idem a)

theorem lookupDerive_noTwoSpaces (nm : List Char) : NoTwoSpaces (lookupDerive nm) := by
  unfold lookupDerive lowCollapse
  generalize vegGo none (stripSufs (stripPrefs (orResolve nm))) = X
  exact normWs_noTwoSpaces _ (normWs_map_jsToLower _ (normWs_collapseC _))

theorem parseItem_item_lookupTerm (raw itxt : List Char)
    (sec cat sq : Option (List Char)) :
    (parseItem (Entry.item raw itxt sec cat sq)).lookupTerm =
      some (String.mk (lookupDerive (nameResolved itxt))) := rfl

theorem parseItem_dir_directive (raw d : List Char) (sec : Option (List Char)) :
    (parseItem (Entry.directive raw d sec)).directive = some (String.mk d) := rfl

section

attribute [local irreducible] nameResolved lookupDerive parseItem

/-- C8: every non-directive record carries a non-null lookup term that is
entirely lowercase (lowercasing it again changes nothing) and contains no
two adjacent space characters. -/
theorem claim8_lookup_normalized (text : String) (p : ParsedItem)
    (hp : p ∈ parseShoppingList text) (hd : p.directive = none) :
    ∃ l : List Char, p.lookupTerm = some (String.mk l) ∧
      l.map jsToLower = l ∧ NoTwoSpaces l := by
  obtain ⟨e, _, rfl⟩ := List.mem_map.mp hp
  cases e with
  | directive raw d sec =>
    rw [parseItem_dir_directive] at hd
    exact absurd hd (by simp)
  | item raw itxt sec cat sq =>
    exact ⟨lookupDerive (nameResolved itxt),
      parseItem_item_lookupTerm raw itxt sec cat sq,
      lookupDerive_lower_fix _, lookupDerive_noTwoSpaces _⟩

end

/-- C8, witness at the single-line document `milk`. -/
theorem claim8_lookup_normalized_witness :
    ∃ l : List Char,
      ({ raw := "milk", name := some "Milk", qty := "", notes := "",
         lookupTerm := some "milk", category := none, sect := none,
         directive := none } : ParsedItem).lookupTerm = some (String.mk l) ∧
        l.map jsToLower = l ∧ NoTwoSpaces l :=
  claim8_lookup_normalized "milk"
    { raw := "milk", name := some "Milk", qty := "", notes := "",
      lookupTerm := some "milk", category := none, sect := none,
      directive := none } (by decide) (by decide)

/-! ### Section propagation (claim C7) -/

/-- Section field of an expanded entry. -/
def entrySect : Entry → Option (List Char)
  | Entry.directive _ _ s => s
  | Entry.item _ _ s _ _ => s

theorem expandLine_sect (b : Block) : ∀ e ∈ expandLine b, entrySect e = b.sect := by
  intro e he
  obtain ⟨kind, text, sect, raw⟩ := b
  cases kind with
  | directive =>
    simp only [expandLine, List.mem_singleton] at he
    subst he; rfl
  | items =>
    simp only [expandLine, segLoop_eq] at he
    rcases List.mem_append.mp he with hd | hi
    · obtain ⟨seg, _, hseg⟩ := List.mem_filterMap.mp hd
      dsimp only at hseg
      split at hseg
      · injection hseg with hseg
        subst hseg; rfl
      · exact absurd hseg (by simp)
    · obtain ⟨x, _, rfl⟩ := List.mem_map.mp hi
      rfl

theorem parseItem_sect (e : Entry) :
    (parseItem e).sect = (jsOrNull (entrySect e)).map String.mk := by
  cases e <;> rfl

theorem blocksGo_sect (ls : List (List Char)) (s0 : List Char)
    (h : ∀ l ∈ ls, headerTest (trimC l) = false) :
    ∀ b ∈ blocksGo ls (some s0), b.sect = some s0 := by
  induction ls with
  | nil => simp [blocksGo]
  | cons l ls ih =>
    intro b hb
    have hl0 : headerTest (trimC l) = false := h l (List.mem_cons_self l ls)
    have hls : ∀ x ∈ ls, headerTest (trimC x) = false :=
      fun x hx => h x (List.mem_cons_of_mem _ hx)
    simp only [blocksGo] at hb
    by_cases hemp : (trimC l).isEmpty = true
    · rw [if_pos hemp] at hb
      exact ih hls b hb
    · rw [if_neg hemp, if_neg (by simp [hl0])] at hb
      rcases List.mem_cons.mp hb with rfl | hb2
      · rfl
      · exact ih hls b hb2

theorem blocksGo_header (sec : Option (List Char)) (h : List Char)
    (ls : List (List Char)) (hh : headerTest (trimC h) = true)
    (hl : ∀ l ∈ ls, headerTest (trimC l) = false) :
    ∀ b ∈ blocksGo (h :: ls) sec, b.sect = some (sectionName (trimC h)) := by
  intro b hb
  have hnemp : ¬ (trimC h).isEmpty = true := by
    intro he
    rw [List.isEmpty_iff] at he
    rw [he] at hh
    exact absurd hh (by decide)
  simp only [blocksGo] at hb
  rw [if_neg hnemp, if_pos hh] at hb
  rcases List.mem_append.mp hb with hin | hrec
  · cases hsp : splitFirstColon (trimC h) with
    | none => rw [hsp] at hin; simp at hin
    | some pr =>
      obtain ⟨pre, post⟩ := pr
      rw [hsp] at hin
      dsimp only at hin
      by_cases hae : (trimC post).isEmpty = true
      · rw [if_pos hae] at hin
        simp at hin
      · rw [if_neg hae] at hin
        split at hin <;>
          (rw [List.mem_singleton] at hin; subst hin; rfl)
  · exact blocksGo_sect ls _ hl b hrec

/-- C7: a header line assigns its derived section label to its own inline
content and to the records of every following non-header line, until a
new header appears; running the remaining stages over those blocks, every
record carries that same section value. -/
theorem claim7_section (sec : Option (List Char)) (h : List Char)
    (ls : List (List Char)) (hh : headerTest (trimC h) = true)
    (hl : ∀ l ∈ ls, headerTest (trimC l) = false) :
    ∀ p ∈ ((blocksGo (h :: ls) sec).flatMap expandLine).map parseItem,
      p.sect = (jsOrNull (some (sectionName (trimC h)))).map String.mk := by
  intro p hp
  obtain ⟨e, he, rfl⟩ := List.mem_map.mp hp
  obtain ⟨b, hb, heb⟩ := List.mem_flatMap.mp he
  rw [parseItem_sect, expandLine_sect b e heb, blocksGo_header sec h ls hh hl b hb]

/-- C7, witness: the header `Frozen section:` followed by the plain line
`milk`. -/
theorem claim7_section_witness :
    ({ raw := "milk", name := some "Milk", qty := "", notes := "",
       lookupTerm := some "milk", category := none,
       sect := some "Frozen section", directive := none } : ParsedItem).sect =
      (jsOrNull (some (sectionName (trimC "Frozen section:".data)))).map String.mk :=
  claim7_section none "Frozen section:".data ["milk".data] (by decide)
    (by decide)
    { raw := "milk", name := some "Milk", qty := "", notes := "",
      lookupTerm := some "milk", category := none,
      sect := some "Frozen section", directive := none } (by decide)

/-! ### Nonemptiness invariants (claim C10) -/

theorem splitOnAnd_mem (y : List Char) (hy : trimC y = y) (hne : y ≠ []) :
    ∀ x ∈ splitOnAnd y, trimC x = x ∧ x ≠ [] := by
  intro x hx
  simp only [splitOnAnd] at hx
  split at hx
  · rw [List.mem_singleton] at hx
    subst hx; exact ⟨hy, hne⟩
  · split at hx
    · rw [List.mem_filter] at hx
      obtain ⟨hmem, hfil⟩ := hx
      obtain ⟨pp, _, rfl⟩ := List.mem_map.mp hmem
      refine ⟨trimC_idem pp, ?_⟩
      simpa [List.isEmpty_iff] using hfil
    · rw [List.mem_singleton] at hx
      subst hx; exact ⟨hy, hne⟩

theorem itemTextsOf_mem (segs : List (List Char)) :
    ∀ x ∈ itemTextsOf segs, trimC x = x ∧ x ≠ [] := by
  intro x hx
  obtain ⟨seg, _, hseg⟩ := List.mem_flatMap.mp hx
  dsimp only at hseg
  split at hseg
  · split at hseg
    · simp at hseg
    · next hcl =>
      refine splitOnAnd_mem _ (trimC_idem _) ?_ x hseg
      simpa [List.isEmpty_iff] using hcl
  · simp at hseg

theorem blocksGo_text_ne (ls : List (List Char)) (sec : Option (List Char)) :
    ∀ b ∈ blocksGo ls sec, b.text ≠ [] := by
  induction ls generalizing sec with
  | nil => simp [blocksGo]
  | cons l ls ih =>
    intro b hb
    simp only [blocksGo] at hb
    by_cases hemp : (trimC l).isEmpty = true
    · rw [if_pos hemp] at hb
      exact ih sec b hb
    · rw [if_neg hemp] at hb
      by_cases hhd : headerTest (trimC l) = true
      · rw [if_pos hhd] at hb
        rcases List.mem_append.mp hb with hin | hrec
        · cases hsp : splitFirstColon (trimC l) with
          | none => rw [hsp] at hin; simp at hin
          | some pr =>
            obtain ⟨pre, post⟩ := pr
            rw [hsp] at hin
            dsimp only at hin
            by_cases hae : (trimC post).isEmpty = true
            · rw [if_pos hae] at hin
              simp at hin
            · rw [if_neg hae] at hin
              split at hin <;>
                (rw [List.mem_singleton] at hin; subst hin
                 simpa [List.isEmpty_iff] using hae)
        · exact ih _ b hrec
      · rw [if_neg hhd] at hb
        rcases List.mem_cons.mp hb with rfl | hb2
        · simpa [List.isEmpty_iff] using hemp
        · exact ih sec b hb2

/-- C10: every block of stage 1 has nonempty text (blank lines yield no
block, and a header's inline block is emitted only when the text after
the colon is nonempty after trimming), and every item-candidate entry of
stage 2 has nonempty item text. -/
theorem claim10_nonempty :
    (∀ (text : String), ∀ b ∈ splitIntoBlocks text, b.text ≠ []) ∧
      (∀ (b : Block) (raw it : List Char) (sec cat sq : Option (List Char)),
        Entry.item raw it sec cat sq ∈ expandLine b → it ≠ []) := by
  constructor
  · intro text b hb
    exact blocksGo_text_ne _ _ b hb
  · intro b raw it sec cat sq hmem
    obtain ⟨kind, text, sect, braw⟩ := b
    cases kind with
    | directive => simp [expandLine] at hmem
    | items =>
      simp only [expandLine, segLoop_eq] at hmem
      rcases List.mem_append.mp hmem with hd | hi
      · obtain ⟨seg, _, hseg⟩ := List.mem_filterMap.mp hd
        dsimp only at hseg
        split at hseg
        · exact absurd hseg (by simp)
        · exact absurd hseg (by simp)
      · obtain ⟨x, hx, heq⟩ := List.mem_map.mp hi
        obtain ⟨hfix, hne⟩ := itemTextsOf_mem _ x hx
        injection heq with h1 h2 h3 h4 h5
        rw [← h2, hfix]
        exact hne

/-- C10, witness at the single-line document `milk` and its items
block. -/
theorem claim10_nonempty_witness :
    ({ kind := BKind.items, text := "milk".data, sect := none,
       raw := "milk".data } : Block).text ≠ [] ∧ "milk".data ≠ [] :=
  ⟨claim10_nonempty.1 "milk"
      { kind := BKind.items, text := "milk".data, sect := none,
        raw := "milk".data } (by decide),
   claim10_nonempty.2
      { kind := BKind.items, text := "milk".data, sect := none,
        raw := "milk".data } "milk".data "milk".data none none none (by decide)⟩

/-! ### Decomposition lemmas for the shared-quantity rule (claim C4) -/

theorem ciLit_decomp (p : List Char) : ∀ (cs m r : List Char),
    ciLit p cs = some (m, r) →
      cs = m ++ r ∧ m.length = p.length ∧ ∀ c ∈ m, jsToLower c ∈ p := by
  induction p with
  | nil =>
    intro cs m r h
    simp only [ciLit, Option.some.injEq, Prod.mk.injEq] at h
    obtain ⟨rfl, rfl⟩ := h
    simp
  | cons p ps ih =>
    intro cs m r h
    cases cs with
    | nil => simp [ciLit] at h
    | cons c cs' =>
      simp only [ciLit] at h
      split at h
      · next heq =>
        cases hrec : ciLit ps cs' with
        | none => rw [hrec] at h; simp at h
        | some mr =>
          obtain ⟨m', r'⟩ := mr
          rw [hrec] at h
          simp only [Option.some.injEq, Prod.mk.injEq] at h
          obtain ⟨h1, h2⟩ := h
          subst h1
          subst h2
          obtain ⟨ha, hl, hm⟩ := ih cs' m' r' hrec
          refine ⟨?_, by simp [hl], ?_⟩
          · rw [List.cons_append, ← ha]
          · intro d hd
            rcases List.mem_cons.mp hd with rfl | hd2
            · rw [heq]; exact List.mem_cons_self _ _
            · exact List.mem_cons_of_mem _ (hm d hd2)
      · exact absurd h (by simp)

theorem digPlus_decomp (cs d r : List Char) (h : digPlus cs = some (d, r)) :
    cs = d ++ r ∧ d ≠ [] ∧ ∀ c ∈ d, isDigitC c = true := by
  cases cs with
  | nil => simp [digPlus] at h
  | cons c cs' =>
    simp only [digPlus] at h
    split at h
    · next hdig =>
      simp only [digRun, Option.some.injEq, Prod.mk.injEq] at h
      obtain ⟨h1, h2⟩ := h
      subst h1
      subst h2
      refine ⟨(List.takeWhile_append_dropWhile _ _).symm, ?_, ?_⟩
      · simp [List.takeWhile_cons, hdig]
      · intro x hx
        exact List.mem_takeWhile_imp hx
    · exact absurd h (by simp)

theorem wsPlus_decomp (cs w r : List Char) (h : wsPlus cs = some (w, r)) :
    cs = w ++ r ∧ w ≠ [] ∧ ∀ c ∈ w, isWsC c = true := by
  cases cs with
  | nil => simp [wsPlus] at h
  | cons c cs' =>
    simp only [wsPlus] at h
    split at h
    · next hws =>
      simp only [wsRun, Option.some.injEq, Prod.mk.injEq] at h
      obtain ⟨h1, h2⟩ := h
      subst h1
      subst h2
      refine ⟨(List.takeWhile_append_dropWhile _ _).symm, ?_, ?_⟩
      · simp [List.takeWhile_cons, hws]
      · intro x hx
        exact List.mem_takeWhile_imp hx
    · exact absurd h (by simp)

/-- Character classes that may occur inside a shared-quantity group:
not whitespace, not a comma, not a colon. -/
def GoodQChar (c : Char) : Prop := isWsC c = false ∧ c ≠ ',' ∧ c ≠ ':'

theorem goodQChar_of_pool (pool : List Char)
    (hpool : ∀ x ∈ pool, isWsC x = false ∧ x ≠ ',' ∧ x ≠ ':')
    (c : Char) (hc : jsToLower c ∈ pool) : GoodQChar c := by
  refine ⟨?_, ?_, ?_⟩
  · rw [← isWsC_jsToLower c]
    exact (hpool _ hc).1
  · intro hcomma
    rw [hcomma] at hc
    rw [show jsToLower ',' = ',' from by decide] at hc
    exact (hpool _ hc).2.1 rfl
  · intro hcolon
    rw [hcolon] at hc
    rw [show jsToLower ':' = ':' from by decide] at hc
    exact (hpool _ hc).2.2 rfl

theorem goodQChar_of_digit (c : Char) (h : isDigitC c = true) : GoodQChar c := by
  refine ⟨?_, ?_, ?_⟩
  · cases hw : isWsC c
    · rfl
    · exfalso
      have : c = ' ' ∨ c = '\t' ∨ c = '\n' ∨ c = '\r' ∨ c = '\x0b' ∨ c = '\x0c' := by
        simpa [isWsC, or_assoc] using hw
      rcases this with rfl | rfl | rfl | rfl | rfl | rfl <;> simp [isDigitC] at h
  · intro hc; rw [hc] at h; exact absurd h (by decide)
  · intro hc; rw [hc] at h; exact absurd h (by decide)

theorem goodQChar_of_ws (c : Char) (h : isWsC c = true) : c ≠ ',' ∧ c ≠ ':' := by
  constructor
  · intro hc; rw [hc] at h; exact absurd h (by decide)
  · intro hc; rw [hc] at h; exact absurd h (by decide)

theorem optS_decomp (base : String) (t : List Char)
    (pr : List Char × List Char) (h : pr ∈ optS base t) :
    t = pr.1 ++ pr.2 ∧ ∀ c ∈ pr.1, jsToLower c ∈ (base ++ "s").data := by
  unfold optS at h
  rcases List.mem_append.mp h with h1 | h1
  · cases hc : ciLit (base ++ "s").data t with
    | none => rw [hc] at h1; simp at h1
    | some mr =>
      rw [hc] at h1
      rw [List.mem_singleton] at h1
      subst h1
      obtain ⟨ha, _, hm⟩ := ciLit_decomp _ _ _ _ hc
      exact ⟨ha, hm⟩
  · cases hc : ciLit base.data t with
    | none => rw [hc] at h1; simp at h1
    | some mr =>
      rw [hc] at h1
      rw [List.mem_singleton] at h1
      subst h1
      obtain ⟨ha, _, hm⟩ := ciLit_decomp _ _ _ _ hc
      refine ⟨ha, ?_⟩
      intro c hcm
      have := hm c hcm
      have hsub : base.data ⊆ (base ++ "s").data := by
        intro x hx
        rw [show (base ++ "s").data = base.data ++ "s".data from rfl]
        exact List.mem_append.mpr (Or.inl hx)
      exact hsub this

theorem optS_good (base : String)
    (hpool : ∀ x ∈ (base ++ "s").data, isWsC x = false ∧ x ≠ ',' ∧ x ≠ ':')
    (t : List Char) (pr : List Char × List Char) (h : pr ∈ optS base t) :
    t = pr.1 ++ pr.2 ∧ ∀ c ∈ pr.1, GoodQChar c := by
  obtain ⟨ha, hm⟩ := optS_decomp base t pr h
  exact ⟨ha, fun c hc => goodQChar_of_pool _ hpool c (hm c hc)⟩

theorem unitCands9_decomp (t : List Char) (pr : List Char × List Char)
    (h : pr ∈ unitCands9 t) :
    t = pr.1 ++ pr.2 ∧ ∀ c ∈ pr.1, GoodQChar c := by
  simp only [unitCands9, List.mem_append] at h
  rcases h with ((((((((h | h) | h) | h) | h) | h) | h) | h) | h)
  · exact optS_good "bag" (by decide) t pr h
  · exact optS_good "can" (by decide) t pr h
  · exact optS_good "box" (by decide) t pr h
  · exact optS_good "pack" (by decide) t pr h
  · exact optS_good "ct" (by decide) t pr h
  · exact optS_good "lb" (by decide) t pr h
  · exact optS_good "bottle" (by decide) t pr h
  · exact optS_good "jar" (by decide) t pr h
  · exact optS_good "bunch" (by decide) t pr h

theorem sqTail_decomp (r3 tc r6 : List Char) (h : sqTail r3 = some (tc, r6)) :
    ∃ wsA rest1, r3 = tc ++ wsA ++ ':' :: rest1 ∧ r6 = rest1.dropWhile isWsC ∧
      (∀ c ∈ wsA, isWsC c = true) ∧ (∀ c ∈ tc, c ≠ ',' ∧ c ≠ ':') ∧
      tc ≠ [] ∧ ∀ c, tc.getLast? = some c → isWsC c = false := by
  unfold sqTail at h
  cases hws : wsPlus r3 with
  | none => rw [hws] at h; simp at h
  | some wr =>
    obtain ⟨w2, r4⟩ := wr
    rw [hws] at h
    dsimp only [] at h
    cases hci : ciLit "each".data r4 with
    | none => rw [hci] at h; simp at h
    | some er =>
      obtain ⟨em, r5⟩ := er
      rw [hci] at h
      dsimp only [] at h
      split at h
      · next r6' heq =>
        obtain ⟨h1, h2⟩ :
            w2 ++ em = tc ∧ List.dropWhile isWsC r6' = r6 := by
          simpa using h
        subst h1
        subst h2
        obtain ⟨ha3, hw2ne, hw2⟩ := wsPlus_decomp _ _ _ hws
        obtain ⟨ha4, hlen, hem⟩ := ciLit_decomp _ _ _ _ hci
        have hemne : em ≠ [] := by
          intro he
          rw [he] at hlen
          simp at hlen
        refine ⟨r5.takeWhile isWsC, r6', ?_, rfl, ?_, ?_, ?_, ?_⟩
        · calc r3 = w2 ++ (em ++ r5) := by rw [ha3, ha4]
          _ = w2 ++ (em ++ (r5.takeWhile isWsC ++ r5.dropWhile isWsC)) := by
              rw [List.takeWhile_append_dropWhile]
          _ = (w2 ++ em) ++ (r5.takeWhile isWsC ++ (':' :: r6')) := by
              rw [heq]; simp only [List.append_assoc]
          _ = (w2 ++ em) ++ r5.takeWhile isWsC ++ ':' :: r6' := by
              simp only [List.append_assoc]
        · exact fun c hc => List.mem_takeWhile_imp hc
        · intro c hc
          rcases List.mem_append.mp hc with hcw | hce
          · exact goodQChar_of_ws c (hw2 c hcw)
          · have hp : ∀ x ∈ "each".data, isWsC x = false ∧ x ≠ ',' ∧ x ≠ ':' := by
              decide
            have hg := goodQChar_of_pool _ hp c (hem c hce)
            exact ⟨hg.2.1, hg.2.2⟩
        · simp [List.append_eq_nil, hw2ne]
        · intro c hc
          rw [List.getLast?_append, List.getLast?_eq_getLast em hemne,
            Option.or_some] at hc
          have hcm : c ∈ em := by
            have := List.getLast_mem hemne
            injection hc with hc2
            rw [← hc2]
            exact this
          have hp : ∀ x ∈ "each".data, isWsC x = false ∧ x ≠ ',' ∧ x ≠ ':' := by
            decide
          exact (goodQChar_of_pool _ hp c (hem c hcm)).1
      · exact absurd h (by simp)

theorem sqScan_decomp (cands : List (List Char × List Char))
    (u r6 : List Char) (h : sqScan cands = some (u, r6)) :
    ∃ pr ∈ cands, ∃ tc, sqTail pr.2 = some (tc, r6) ∧ u = pr.1 ++ tc := by
  induction cands with
  | nil => simp [sqScan] at h
  | cons pr rest ih =>
    obtain ⟨um, r3⟩ := pr
    simp only [sqScan] at h
    cases hst : sqTail r3 with
    | none =>
      rw [hst] at h
      obtain ⟨pr', hpr', tc, hh⟩ := ih h
      exact ⟨pr', List.mem_cons_of_mem _ hpr', tc, hh⟩
    | some tr =>
      obtain ⟨tc, r6'⟩ := tr
      rw [hst] at h
      simp only [Option.some.injEq, Prod.mk.injEq] at h
      obtain ⟨h1, h2⟩ := h
      subst h2
      exact ⟨(um, r3), List.mem_cons_self _ _, tc, hst, h1.symm⟩

theorem sharedQtyM_decomp (text q r : List Char)
    (h : sharedQtyM text = some (q, r)) :
    ∃ wsA rest1, text = q ++ wsA ++ ':' :: rest1 ∧ r = rest1.dropWhile isWsC ∧
      (∀ c ∈ wsA, isWsC c = true) ∧
      (∀ c ∈ q, c ≠ ',' ∧ c ≠ ':') ∧ q ≠ [] ∧
      (∀ c, q.head? = some c → isDigitC c = true) ∧
      (∀ c, q.getLast? = some c → isWsC c = false) := by
  unfold sharedQtyM at h
  cases hd : digPlus text with
  | none => rw [hd] at h; simp at h
  | some dr =>
    obtain ⟨d, r1⟩ := dr
    rw [hd] at h
    dsimp only [] at h
    cases hw : wsPlus r1 with
    | none => rw [hw] at h; simp at h
    | some wr =>
      obtain ⟨w1, r2⟩ := wr
      rw [hw] at h
      dsimp only [] at h
      cases hs : sqScan (unitCands9 r2) with
      | none => rw [hs] at h; simp at h
      | some mr =>
        obtain ⟨mid, r6⟩ := mr
        rw [hs] at h
        simp only [Option.map_some', Option.some.injEq, Prod.mk.injEq] at h
        obtain ⟨h1, h2⟩ := h
        subst h1
        subst h2
        obtain ⟨had, hdne, hdd⟩ := digPlus_decomp _ _ _ hd
        obtain ⟨haw, hwne, hww⟩ := wsPlus_decomp _ _ _ hw
        obtain ⟨pr, hprmem, tc, hst, hmid⟩ := sqScan_decomp _ _ _ hs
        obtain ⟨har2, hum⟩ := unitCands9_decomp _ _ hprmem
        obtain ⟨wsA, rest1, har3, hr6, hwsA, htc, htcne, htclast⟩ :=
          sqTail_decomp _ _ _ hst
        subst hmid
        refine ⟨wsA, rest1, ?_, hr6, hwsA, ?_, ?_, ?_, ?_⟩
        · calc text = d ++ (w1 ++ r2) := by rw [had, haw]
          _ = d ++ (w1 ++ (pr.1 ++ (tc ++ wsA ++ ':' :: rest1))) := by
              rw [← har3, ← har2]
          _ = (d ++ w1 ++ (pr.1 ++ tc)) ++ wsA ++ ':' :: rest1 := by
              simp [List.append_assoc]
        · intro c hc
          simp only [List.append_assoc, List.mem_append] at hc
          rcases hc with hc | hc | hc | hc
          · exact (goodQChar_of_digit c (hdd c hc)).2
          · exact goodQChar_of_ws c (hww c hc)
          · exact ⟨(hum c hc).2.1, (hum c hc).2.2⟩
          · exact htc c hc
        · simp [List.append_eq_nil, hdne]
        · intro c hc
          rw [List.append_assoc, List.head?_append_of_ne_nil _ hdne] at hc
          cases hdcase : d with
          | nil => exact absurd hdcase hdne
          | cons d0 ds =>
            rw [hdcase] at hc
            simp only [List.head?_cons, Option.some.injEq] at hc
            subst hc
            exact hdd d0 (by rw [hdcase]; exact List.mem_cons_self _ _)
        · intro c hc
          rw [List.getLast?_append, List.getLast?_append, List.getLast?_append,
            List.getLast?_eq_getLast tc htcne] at hc
          simp only [Option.or_some] at hc
          injection hc with hc2
          refine htclast c ?_
          rw [List.getLast?_eq_getLast tc htcne, hc2]

theorem ciLit_head_ne (p : Char) (ps : List Char) (c : Char) (cs : List Char)
    (h : ¬ jsToLower c = p) : ciLit (p :: ps) (c :: cs) = none := by
  unfold ciLit
  rw [if_neg h]

theorem digit_not_low (c : Char) (hd : isDigitC c = true) (p : Char)
    (hp : 'a' ≤ p) : ¬ jsToLower c = p := by
  rw [jsToLower_of_digit c hd]
  intro he
  subst he
  simp only [isDigitC, Bool.and_eq_true, decide_eq_true_eq] at hd
  exact absurd (le_trans hp hd.2) (by decide)

theorem ciLit_low_digit (w : List Char) (p : Char) (hw : w.head? = some p)
    (hp : 'a' ≤ p) (c : Char) (cs : List Char) (hd : isDigitC c = true) :
    ciLit w (c :: cs) = none := by
  cases w with
  | nil => simp at hw
  | cons p0 ps =>
    simp only [List.head?_cons, Option.some.injEq] at hw
    subst hw
    exact ciLit_head_ne _ _ _ _ (digit_not_low c hd p0 hp)

theorem optS_digit (base : String) (p : Char) (hh : base.data.head? = some p)
    (hp : 'a' ≤ p) (c : Char) (cs : List Char) (hd : isDigitC c = true) :
    optS base (c :: cs) = [] := by
  have hbne : base.data ≠ [] := by
    intro h0; rw [h0] at hh; simp at hh
  have hh2 : (base ++ "s").data.head? = some p := by
    rw [show (base ++ "s").data = base.data ++ "s".data from rfl,
      List.head?_append_of_ne_nil _ hbne]
    exact hh
  unfold optS
  rw [ciLit_low_digit _ p hh2 hp c cs hd, ciLit_low_digit _ p hh hp c cs hd]
  rfl

theorem oneCand_digit (s : String) (p : Char) (hh : s.data.head? = some p)
    (hp : 'a' ≤ p) (c : Char) (cs : List Char) (hd : isDigitC c = true) :
    oneCand s (c :: cs) = [] := by
  unfold oneCand
  rw [ciLit_low_digit _ p hh hp c cs hd]

theorem coldCutsCands_digit (c : Char) (cs : List Char)
    (hd : isDigitC c = true) : coldCutsCands (c :: cs) = [] := by
  unfold coldCutsCands
  rw [ciLit_low_digit "cold".data 'c' (by decide) (by decide) c cs hd]

theorem catCands_digit (c : Char) (cs : List Char) (hd : isDigitC c = true) :
    catCands (c :: cs) = [] := by
  unfold catCands
  rw [optS_digit "fruit" 'f' (by decide) (by decide) c cs hd,
    oneCand_digit "veggies" 'v' (by decide) (by decide) c cs hd,
    optS_digit "vegetable" 'v' (by decide) (by decide) c cs hd,
    oneCand_digit "cereal" 'c' (by decide) (by decide) c cs hd,
    coldCutsCands_digit c cs hd,
    optS_digit "snack" 's' (by decide) (by decide) c cs hd,
    optS_digit "drink" 'd' (by decide) (by decide) c cs hd,
    optS_digit "beverage" 'b' (by decide) (by decide) c cs hd,
    optS_digit "meat" 'm' (by decide) (by decide) c cs hd,
    oneCand_digit "dairy" 'd' (by decide) (by decide) c cs hd,
    oneCand_digit "frozen" 'f' (by decide) (by decide) c cs hd,
    oneCand_digit "bread" 'b' (by decide) (by decide) c cs hd,
    optS_digit "condiment" 'c' (by decide) (by decide) c cs hd,
    optS_digit "spice" 's' (by decide) (by decide) c cs hd,
    optS_digit "herb" 'h' (by decide) (by decide) c cs hd]
  rfl

theorem catMatch_digit (c : Char) (cs : List Char) (hd : isDigitC c = true) :
    catMatch (c :: cs) = none := by
  unfold catMatch
  rw [catCands_digit c cs hd]
  rfl

theorem takeWhile_all_append (p : Char → Bool) (l₁ l₂ : List Char)
    (h : ∀ c ∈ l₁, p c = true) :
    (l₁ ++ l₂).takeWhile p = l₁ ++ l₂.takeWhile p := by
  induction l₁ with
  | nil => simp
  | cons a t ih =>
    simp only [List.cons_append, List.takeWhile_cons,
      h a (List.mem_cons_self _ _), if_true]
    rw [ih (fun c hc => h c (List.mem_cons_of_mem _ hc))]

theorem dropWhile_all_append (p : Char → Bool) (l₁ l₂ : List Char)
    (h : ∀ c ∈ l₁, p c = true) :
    (l₁ ++ l₂).dropWhile p = l₂.dropWhile p := by
  induction l₁ with
  | nil => simp
  | cons a t ih =>
    simp only [List.cons_append, List.dropWhile_cons,
      h a (List.mem_cons_self _ _), if_true]
    exact ih (fun c hc => h c (List.mem_cons_of_mem _ hc))

theorem dropWhile_head_false (p : Char → Bool) (l : List Char)
    (h : ∀ c, l.head? = some c → p c = false) :
    l.dropWhile p = l := by
  cases l with
  | nil => rfl
  | cons a t =>
    have := h a rfl
    simp [List.dropWhile_cons, this]

theorem trimC_append_ws (q wsA : List Char) (hne : q ≠ [])
    (hh : ∀ c, q.head? = some c → isWsC c = false)
    (hl : ∀ c, q.getLast? = some c → isWsC c = false)
    (hw : ∀ c ∈ wsA, isWsC c = true) :
    trimC (q ++ wsA) = q := by
  have h1 : ∀ c, (q ++ wsA).head? = some c → isWsC c = false := by
    intro c hc
    rw [List.head?_append_of_ne_nil _ hne] at hc
    exact hh c hc
  have h2 : ∀ c, q.reverse.head? = some c → isWsC c = false := by
    intro c hc
    rw [List.head?_reverse] at hc
    exact hl c hc
  unfold trimC trimL trimR
  rw [dropWhile_head_false isWsC (q ++ wsA) h1, List.reverse_append,
    dropWhile_all_append isWsC wsA.reverse q.reverse
      (fun c hc => hw c (List.mem_reverse.mp hc)),
    dropWhile_head_false isWsC q.reverse h2, List.reverse_reverse]

theorem genericColonM_pre (cs pre g : List Char)
    (h : genericColonM cs = some (pre, g)) :
    pre = cs.takeWhile (fun c => c ≠ ',' && c ≠ ':') := by
  simp only [genericColonM] at h
  split at h
  · split at h
    · simp only [Option.map_eq_some'] at h
      obtain ⟨g0, hg0, hpg⟩ := h
      simp only [Prod.mk.injEq] at hpg
      exact hpg.1.symm
    · exact absurd h (by simp)
  · exact absurd h (by simp)

/-- Firing condition of the ad-hoc category fallback (lines 170 to 181):
the generic colon rule matches, its pre-colon text fails the quantity
guard, and the post-colon text has a comma or the word `and`. -/
def colonCatFires (text : List Char) : Bool :=
  match genericColonM text with
  | some (pre, gp2) =>
    !isQtyPref (trimC pre) && ((trimC gp2).contains ',' || wordAndTest (trimC gp2))
  | none => false

theorem catStage_guarded (text q r : List Char)
    (hsq : sharedQtyM text = some (q, r))
    (hres : isQtyPref q = true ∨ colonCatFires text = false) :
    catStage text = (text, none) := by
  obtain ⟨wsA, rest1, htext, hr, hwsA, hq, hqne, hqhead, hqlast⟩ :=
    sharedQtyM_decomp text q r hsq
  have hqw : ∀ c ∈ q ++ wsA, (c ≠ ',' && c ≠ ':') = true := by
    intro c hc
    rcases List.mem_append.mp hc with hc | hc
    · simp [(hq c hc).1, (hq c hc).2]
    · simp [(goodQChar_of_ws c (hwsA c hc)).1, (goodQChar_of_ws c (hwsA c hc)).2]
  have htw : text.takeWhile (fun c => c ≠ ',' && c ≠ ':') = q ++ wsA := by
    rw [htext, takeWhile_all_append _ (q ++ wsA) (':' :: rest1) hqw]
    simp
  have hqhw : ∀ c, q.head? = some c → isWsC c = false := fun c hc =>
    (goodQChar_of_digit c (hqhead c hc)).1
  have htrim : trimC (q ++ wsA) = q :=
    trimC_append_ws q wsA hqne hqhw hqlast hwsA
  have hcm : catMatch text = none := by
    cases hqE : q with
    | nil => exact absurd hqE hqne
    | cons a t =>
      have hda : isDigitC a = true := hqhead a (by rw [hqE]; exact rfl)
      rw [htext, hqE]
      exact catMatch_digit a _ hda
  unfold catStage
  rw [hcm]
  cases hgc : genericColonM text with
  | none => rfl
  | some pg =>
    obtain ⟨pre, gp⟩ := pg
    dsimp only []
    rcases hres with hg | hcf
    · have hpre : pre = text.takeWhile (fun c => c ≠ ',' && c ≠ ':') :=
        genericColonM_pre text pre gp hgc
      rw [hpre, htw, htrim, hg]
      simp
    · unfold colonCatFires at hcf
      rw [hgc] at hcf
      dsimp only [] at hcf
      rw [hcf]
      simp

/-- C4 is refuted on the units absent from the guard of line 176: on the
block `2 bottles each: juice, soda` the shared-quantity pattern does match
the text with quantity `2 bottles each`, yet the expander emits the
pre-colon phrase as an ad-hoc category and leaves sharedQty empty on every
item entry, because the generic colon rule runs first and its guard lists
only bag, can, box, pack, ct and lb. -/
theorem claim4_counterexample :
    sharedQtyM "2 bottles each: juice, soda".data =
      some ("2 bottles each".data, "juice, soda".data) ∧
    isQtyPref "2 bottles each".data = false ∧
    catStage "2 bottles each: juice, soda".data =
      ("juice, soda".data, some "2 bottles each".data) ∧
    expandLine (Block.mk BKind.items "2 bottles each: juice, soda".data none
        "2 bottles each: juice, soda".data) =
      [Entry.item "2 bottles each: juice, soda".data "juice".data none
         (some "2 bottles each".data) none,
       Entry.item "2 bottles each: juice, soda".data "soda".data none
         (some "2 bottles each".data) none] := by
  refine ⟨by decide, by decide, by decide, by decide⟩

/-- C4 (amended): when the text of an items block matches the
shared-quantity pattern and the ad-hoc category fallback does not
intercept it — either because the quantity phrase's unit is among the six
of the guard (bag, can, box, pack, ct, lb), or because the post-colon text
contains neither a comma nor the word `and` — the category stage leaves
the text unchanged with no category, the shared-quantity stage captures
the trimmed phrase, and every item entry of the expanded line carries that
sharedQty and no category. -/
theorem claim4_amended (raw : List Char) (sec : Option (List Char))
    (text q r : List Char)
    (hsq : sharedQtyM text = some (q, r))
    (hres : isQtyPref q = true ∨ colonCatFires text = false) :
    catStage text = (text, none) ∧
    sqStage text = (trimC r, some (trimC q)) ∧
    ∀ e ∈ expandLine (Block.mk BKind.items text sec raw),
      ∀ raw2 it sect2 cat sq, e = Entry.item raw2 it sect2 cat sq →
        cat = none ∧ sq = some (trimC q) := by
  have hcat : catStage text = (text, none) := catStage_guarded text q r hsq hres
  have hsq2 : sqStage text = (trimC r, some (trimC q)) := by
    unfold sqStage
    rw [hsq]
  refine ⟨hcat, hsq2, ?_⟩
  intro e he raw2 it sect2 cat sq heq
  simp only [expandLine, segLoop_eq] at he
  rcases List.mem_append.mp he with hd | hi
  · obtain ⟨seg, _, hseg⟩ := List.mem_filterMap.mp hd
    dsimp only at hseg
    split at hseg
    · injection hseg with hseg2
      rw [← hseg2] at heq
      exact absurd heq (by simp)
    · exact absurd hseg (by simp)
  · obtain ⟨x, _, rfl⟩ := List.mem_map.mp hi
    simp only [hcat, hsq2] at heq
    injection heq with h1 h2 h3 h4 h5
    exact ⟨h4.symm, h5.symm⟩

/-- Closed witness for the amended C4, exercising both capture cases: the
guarded unit `bag` on a comma line, and the unguarded unit `bottle` on a
line with no comma and no `and` after the colon. -/
theorem claim4_amended_witness :
    (sharedQtyM "2 bags each: chips, salsa".data =
       some ("2 bags each".data, "chips, salsa".data) ∧
     isQtyPref "2 bags each".data = true ∧
     (catStage "2 bags each: chips, salsa".data =
        ("2 bags each: chips, salsa".data, none) ∧
      sqStage "2 bags each: chips, salsa".data =
        (trimC "chips, salsa".data, some (trimC "2 bags each".data)) ∧
      ∀ e ∈ expandLine (Block.mk BKind.items "2 bags each: chips, salsa".data
          none "2 bags each: chips, salsa".data),
        ∀ raw2 it sect2 cat sq, e = Entry.item raw2 it sect2 cat sq →
          cat = none ∧ sq = some (trimC "2 bags each".data))) ∧
    (sharedQtyM "2 bottles each: juice".data =
       some ("2 bottles each".data, "juice".data) ∧
     colonCatFires "2 bottles each: juice".data = false ∧
     (catStage "2 bottles each: juice".data =
        ("2 bottles each: juice".data, none) ∧
      sqStage "2 bottles each: juice".data =
        (trimC "juice".data, some (trimC "2 bottles each".data)) ∧
      ∀ e ∈ expandLine (Block.mk BKind.items "2 bottles each: juice".data
          none "2 bottles each: juice".data),
        ∀ raw2 it sect2 cat sq, e = Entry.item raw2 it sect2 cat sq →
          cat = none ∧ sq = some (trimC "2 bottles each".data))) :=
  ⟨⟨by decide, by decide,
    claim4_amended "2 bags each: chips, salsa".data none
      "2 bags each: chips, salsa".data "2 bags each".data "chips, salsa".data
      (by decide) (Or.inl (by decide))⟩,
   ⟨by decide, by decide,
    claim4_amended "2 bottles each: juice".data none
      "2 bottles each: juice".data "2 bottles each".data "juice".data
      (by decide) (Or.inr (by decide))⟩⟩

end Nlp
